import Mathlib

/-!
The hotfix release script `scripts/publish.js`.

A shallow embedding of the release script and the properties of its version
arithmetic, its configuration and manifest readers and its control flow.

JavaScript strings are modelled as lists of characters.  Every string the script
handles is decoded from UTF-8 (`readFileSync` and `execSync` with an encoding) or
typed at the prompt, so it holds no lone surrogate, and every pattern the script
searches for is ASCII: matching by character and matching by UTF-16 code unit
agree.
-/

namespace Publish

/-- JavaScript strings -/
abbrev Str := List Char

instance exceptDecEq {ε α : Type} [DecidableEq ε] [DecidableEq α] : DecidableEq (Except ε α)
  | Except.ok a, Except.ok b =>
    if h : a = b then isTrue (by rw [h]) else isFalse (fun h2 => h (Except.ok.inj h2))
  | Except.error a, Except.error b =>
    if h : a = b then isTrue (by rw [h]) else isFalse (fun h2 => h (Except.error.inj h2))
  | Except.ok _, Except.error _ => isFalse (fun h => Except.noConfusion h)
  | Except.error _, Except.ok _ => isFalse (fun h => Except.noConfusion h)

/-! ## String built-ins -/

/-- The first occurrence of `sep` in a string: the text before it and the text
after it (`indexOf` followed by the two `substring` calls of `split`). -/
def breakOn (sep : Str) : Str → Option (Str × Str)
  | [] => none
  | c :: t =>
    if sep.isPrefixOf (c :: t) then some ([], (c :: t).drop sep.length)
    else
      match breakOn sep t with
      | some (a, b) => some (c :: a, b)
      | none => none

/-- The loop of `String.prototype.split` for a non-empty separator; `fuel` bounds
the number of separators still to be found. -/
def splitFuel (sep : Str) : Nat → Str → List Str
  | 0, s => [s]
  | fuel + 1, s =>
    match breakOn sep s with
    | none => [s]
    | some (a, b) => a :: splitFuel sep fuel b

/-- `s.split(sep)` for a non-empty string separator `sep`.  A string of length `n`
holds at most `n` occurrences of a non-empty separator. -/
def split (sep : Str) (s : Str) : List Str :=
  splitFuel sep s.length s

/-- `parts.join(sep)` on an array of strings -/
def join (sep : Str) (parts : List Str) : Str :=
  sep.intercalate parts

/-- The characters `trim` and `parseInt` treat as white space: the ECMAScript
`WhiteSpace` and `LineTerminator` productions. -/
def isWhiteSpace (c : Char) : Bool :=
  let n := c.toNat
  n = 0x9 || n = 0xA || n = 0xB || n = 0xC || n = 0xD || n = 0x20 || n = 0xA0 ||
  n = 0x1680 || (0x2000 ≤ n && n ≤ 0x200A) || n = 0x2028 || n = 0x2029 ||
  n = 0x202F || n = 0x205F || n = 0x3000 || n = 0xFEFF

/-- Leading white space removed -/
def trimStart (s : Str) : Str :=
  s.dropWhile isWhiteSpace

/-- Trailing white space removed -/
def trimEnd (s : Str) : Str :=
  (s.reverse.dropWhile isWhiteSpace).reverse

/-- `s.trim()` -/
def trim (s : Str) : Str :=
  trimEnd (trimStart s)

/-- `line.startsWith(p)` -/
def startsWith (p : Str) (s : Str) : Bool :=
  p.isPrefixOf s

/-- The lower-case form of one character.  Only `A`–`Z` are mapped: the script
uses `toLowerCase` solely to compare with the ASCII words `y` and `yes`, and no
character outside `A`–`Z` has `y`, `e` or `s` in its Unicode lower-case mapping. -/
def toLowerChar (c : Char) : Char :=
  if 65 ≤ c.toNat ∧ c.toNat ≤ 90 then Char.ofNat (c.toNat + 32) else c

/-- `s.toLowerCase()` -/
def toLowerCase (s : Str) : Str :=
  s.map toLowerChar

/-! ## Numbers

`parseInt` and `+ 1` work on IEEE-754 doubles.  Only integer-valued doubles, `NaN`
and the infinities arise in the script; an integer-valued double is modelled by
its value (`-0 + 1` is `1`, as `0 + 1`, so the sign of zero is not kept). -/

/-- The Number values `parseInt(_, 10)` and `_ + 1` can produce -/
inductive JSNumber where
  | nan
  | inf (negative : Bool)
  | int (z : Int)
  deriving DecidableEq

/-- The decimal digits of a natural number, most significant first -/
def decimal (n : Nat) : Str :=
  Nat.toDigits 10 n

/-- ASCII decimal digit test -/
def isDigit (c : Char) : Bool :=
  48 ≤ c.toNat && c.toNat ≤ 57

/-- The value of a string of decimal digits -/
def digitsValue (ds : Str) : Nat :=
  ds.foldl (fun acc c => 10 * acc + (c.toNat - 48)) 0

/-- The number of binary digits of `n`, counted by halving; `fuel` bounds the
number of halvings. -/
def bitLengthFuel : Nat → Nat → Nat
  | 0, _ => 0
  | fuel + 1, n => if n = 0 then 0 else bitLengthFuel fuel (n / 2) + 1

/-- The number of binary digits of `n`; `n` halvings always reach zero. -/
def bitLength (n : Nat) : Nat :=
  bitLengthFuel n n

/-- A natural number rounded to the nearest double (53 significant bits, ties to
the even significand); the result is returned as a natural number, which
is `2 ^ 1024` or more when the double overflows. -/
def roundNat (n : Nat) : Nat :=
  if n < 2 ^ 53 then n
  else
    let e := bitLength n - 53
    let q := n / 2 ^ e
    let r := n % 2 ^ e
    let half := 2 ^ (e - 1)
    if r < half then q * 2 ^ e
    else if half < r then (q + 1) * 2 ^ e
    else if q % 2 = 0 then q * 2 ^ e
    else (q + 1) * 2 ^ e

/-- The double nearest to an integer -/
def toDouble (z : Int) : JSNumber :=
  let m := roundNat z.natAbs
  if 1024 < bitLength m then JSNumber.inf (decide (z < 0))
  else if z < 0 then JSNumber.int (-(m : Int)) else JSNumber.int m

/-- `parseInt(input, 10)` on a string: leading white space is skipped, one sign is
read, then the longest run of decimal digits; no digit gives `NaN`.  The digits'
value is rounded to the nearest double (what V8 does; the language lets digits
past the twentieth be read as zeros). -/
def parseIntStr (input : Str) : JSNumber :=
  let s := trimStart input
  let negative := s.head? = some '-'
  let s := if s.head? = some '-' ∨ s.head? = some '+' then s.drop 1 else s
  let z := s.takeWhile isDigit
  if z = [] then JSNumber.nan
  else if negative then toDouble (-(digitsValue z : Int))
  else toDouble (digitsValue z)

/-- `parseInt(input, 10)` on an array element: an absent element is `undefined`,
which `parseInt` first converts to the string `undefined`. -/
def parseInt (input : Option Str) : JSNumber :=
  match input with
  | some s => parseIntStr s
  | none => parseIntStr "undefined".toList

/-- `x + 1` on a Number -/
def addOne : JSNumber → JSNumber
  | JSNumber.nan => JSNumber.nan
  | JSNumber.inf b => JSNumber.inf b
  | JSNumber.int z => toDouble (z + 1)

/-- The multiples of `10 ^ (n - k)` next to `x` that round to the double `x`, where
`n` is the number of digits of `x`: the candidates with `k` significant digits. -/
def shortestCandidates (x k : Nat) : List Nat :=
  let p := 10 ^ ((decimal x).length - k)
  let lo := x / p * p
  [lo, lo + p].filter (fun v => roundNat v = x)

/-- Among two candidates the one nearer to `x`, and on a tie the one whose
significand is even. -/
def pickClosest (x k : Nat) : List Nat → Option Nat
  | [] => none
  | [v] => some v
  | lo :: hi :: _ =>
    if x - lo < hi - x then some lo
    else if hi - x < x - lo then some hi
    else if (lo / 10 ^ ((decimal x).length - k)) % 2 = 0 then some lo else some hi

/-- The integer with the fewest significant digits that rounds to the double `x`
(step 5 of `Number::toString`), for an integer-valued `x` above `2 ^ 53`. -/
def shortest (x : Nat) : Nat :=
  match (List.range' 1 (decimal x).length).findSome?
      (fun k => pickClosest x k (shortestCandidates x k)) with
  | some v => v
  | none => x

/-- Trailing zero digits removed -/
def stripTrailingZeros (ds : Str) : Str :=
  (ds.reverse.dropWhile (fun c => c = '0')).reverse

/-- `Number::toString` on a non-negative integer-valued double.  Up to `2 ^ 53`
every integer is a double and prints as itself; above, the shortest digits that
round to it are printed, in exponent form from 22 digits on. -/
def natToString (x : Nat) : Str :=
  if x ≤ 2 ^ 53 then decimal x
  else
    let ds := decimal (shortest x)
    if ds.length ≤ 21 then ds
    else
      match stripTrailingZeros ds with
      | [] => ds
      | [d] => d :: ("e+".toList ++ decimal (ds.length - 1))
      | d :: rest => d :: '.' :: (rest ++ ("e+".toList ++ decimal (ds.length - 1)))

/-- `String(x)` for a Number `x`, as `join` applies it -/
def numberToString : JSNumber → Str
  | JSNumber.nan => "NaN".toList
  | JSNumber.inf false => "Infinity".toList
  | JSNumber.inf true => "-Infinity".toList
  | JSNumber.int z => if z < 0 then '-' :: natToString z.natAbs else natToString z.natAbs

/-! ## `buildNextVersion` -/

/-- The values `buildNextVersion` is called with: `getLatestVersion` returns a
string or `null`; a missing argument is `undefined`. -/
inductive Version where
  | null
  | undefined
  | str (s : Str)
  deriving DecidableEq

/-- The separator between base version and hotfix number -/
def hotfixSep : Str := "-hotfix.".toList

/-- The message of the error thrown on a base version mismatch -/
def mismatchMessage (currentVersion baseVersion : Str) : Str :=
  "Current latest hotfix version ".toList ++ currentVersion ++
    " does not match the package base version ".toList ++ baseVersion

/-- The assignment `parts[1] = v` on an array of strings -/
def setSecond (parts : List Str) (v : Str) : List Str :=
  match parts with
  | [] => [[], v]
  | [a] => [a, v]
  | a :: _ :: rest => a :: v :: rest

/-- The function `buildNextVersion(currentVersion)`, with the module constant
`baseVersion` as a parameter; `Except.error` is the thrown `Error`'s message. -/
def buildNextVersion (baseVersion : Str) (currentVersion : Version) : Except Str Str :=
  match currentVersion with
  | Version.null => Except.ok (baseVersion ++ "-hotfix.1".toList)
  | Version.undefined => Except.ok (baseVersion ++ "-hotfix.1".toList)
  | Version.str cur =>
    if cur = [] then Except.ok (baseVersion ++ "-hotfix.1".toList)
    else
      let parts := split hotfixSep cur
      if parts.head? ≠ some baseVersion then
        Except.error (mismatchMessage cur baseVersion)
      else
        let hotfixPart := parseInt (parts.get? 1)
        Except.ok (join hotfixSep (setSecond parts (numberToString (addOne hotfixPart))))

/-! ## `resolveRegistry` -/

/-- The message of the `TypeError` raised by calling `trim` on `undefined` -/
def trimOfUndefined : Str :=
  "Cannot read properties of undefined (reading 'trim')".toList

/-- The `for (const line of lines)` loop of `resolveRegistry` -/
def registryOfLines : List Str → Except Str (Option Str)
  | [] => Except.ok none
  | line :: rest =>
    if startsWith "registry=".toList line then
      match (split "=".toList line).get? 1 with
      | some value => Except.ok (some (trim value))
      | none => Except.error trimOfUndefined
    else registryOfLines rest

/-- The function `resolveRegistry()`.  The argument is the content of `.npmrc`, or
`none` when the file does not exist; the result is the returned string, or `none`
for `null`. -/
def resolveRegistry (npmrc : Option Str) : Except Str (Option Str) :=
  match npmrc with
  | some npmrcContent => registryOfLines (split "\n".toList npmrcContent)
  | none => Except.ok none

/-! ## `readJson` -/

/-- The characters the pattern `.` does not match -/
def isLineTerminator (c : Char) : Bool :=
  c.toNat = 0xA || c.toNat = 0xD || c.toNat = 0x2028 || c.toNat = 0x2029

/-- The pattern `(?:\\"|[^"])*"` matched against a text by backtracking: each
repetition tries `\\"` before `[^"]`, and the closing quote is tried only when no
further repetition leads to a match.  The result is the text after the match. -/
def stringTail : Str → Option Str
  | [] => none
  | c :: t =>
    let viaEscape : Option Str :=
      if c = '\\' then
        match t with
        | d :: u => if d = '"' then stringTail u else none
        | [] => none
      else none
    match viaEscape with
    | some r => some r
    | none =>
      match (if c = '"' then none else stringTail t) with
      | some r => some r
      | none => if c = '"' then some t else none

/-- One match of the pattern of `readJson` -/
structure RegexMatch where
  /-- whether the capture group (a comment) took part in the match -/
  comment : Bool
  /-- the text after the match -/
  rest : Str

/-- The pattern `\\"|"(?:\\"|[^"])*"|(\/\/.*|\/\*[\s\S]*?\*\/)` matched at the
start of a text. -/
def matchAt (s : Str) : Option RegexMatch :=
  match s with
  | [] => none
  | c :: t =>
    if c = '\\' then
      match t with
      | d :: u => if d = '"' then some ⟨false, u⟩ else none
      | [] => none
    else if c = '"' then
      match stringTail t with
      | some r => some ⟨false, r⟩
      | none => none
    else if c = '/' then
      match t with
      | d :: u =>
        if d = '/' then some ⟨true, u.dropWhile (fun x => !isLineTerminator x)⟩
        else if d = '*' then
          match breakOn "*/".toList u with
          | some (_, r) => some ⟨true, r⟩
          | none => none
        else none
      | [] => none
    else none

/-- The global `replace` of `readJson`: at each position the pattern is tried; a
comment match is replaced by the empty string, any other match by itself, and an
unmatched character is copied.  `fuel` bounds the number of positions visited. -/
def replaceFuel : Nat → Str → Str
  | 0, s => s
  | _ + 1, [] => []
  | fuel + 1, c :: t =>
    match matchAt (c :: t) with
    | some m =>
      if m.comment then replaceFuel fuel m.rest
      else (c :: t).take ((c :: t).length - m.rest.length) ++ replaceFuel fuel m.rest
    | none => c :: replaceFuel fuel t

/-- The text `readJson` hands to `JSON.parse`.  Every step consumes at least one
character, so the length of the text is enough fuel. -/
def stripComments (data : Str) : Str :=
  replaceFuel data.length data

/-- The function `readJson(path)` on the content `data` of the file; the built-in
`JSON.parse` is a parameter. -/
def readJson {α : Type} (jsonParse : Str → Except Str α) (data : Str) : Except Str α :=
  jsonParse (stripComments data)

/-! ## The manifest rewrite of `prepare` -/

/-- JSON values, as `JSON.parse` returns them.  A number is kept as its literal:
no operation of the script looks at one. -/
inductive JSValue where
  | null
  | bool (b : Bool)
  | number (literal : Str)
  | string (s : Str)
  | array (items : List JSValue)
  | object (fields : List (Str × JSValue))

/-- The own properties of a plain object -/
abbrev JSObject := List (Str × JSValue)

/-- Property read `o[k]`; `none` is `undefined` -/
def getProp (k : Str) : JSObject → Option JSValue
  | [] => none
  | (k', v) :: rest => if k' = k then some v else getProp k rest

/-- Property write `o[k] = v` on a plain object: an existing property keeps its
place, a new one is added last. -/
def setProp (k : Str) (v : JSValue) : JSObject → JSObject
  | [] => [(k, v)]
  | (k', v') :: rest => if k' = k then (k, v) :: rest else (k', v') :: setProp k v rest

/-- The statement `delete o[k]` -/
def deleteProp (k : Str) : JSObject → JSObject
  | [] => []
  | (k', v') :: rest => if k' = k then deleteProp k rest else (k', v') :: deleteProp k rest

/-- The constant `packageDomain` -/
def packageDomain : Str := "@dida-whotfix".toList

/-- The constant `whotfixPackageName`, from the `name` of the project manifest -/
def whotfixPackageName (baseName : Str) : Str :=
  packageDomain ++ "/".toList ++ baseName

/-- The value assigned to `repository` -/
def repositoryLiteral : JSValue :=
  JSValue.object
    [("type".toList, JSValue.string "git".toList),
     ("url".toList,
      JSValue.string "git+https://github.com/DidaTravel/oidc-client-ts-whotfix.git".toList)]

/-- The value assigned to `homepage` -/
def homepageLiteral : JSValue :=
  JSValue.string "https://github.com/DidaTravel/oidc-client-ts-whotfix#readme".toList

/-- The assignments and deletions `prepare` applies to the staged manifest
`builtOutputPkgJson`, in the order of the source. -/
def rewriteManifest (baseName nextVersion : Str) (builtOutputPkgJson : JSObject) : JSObject :=
  let m := setProp "name".toList (JSValue.string (whotfixPackageName baseName)) builtOutputPkgJson
  let m := setProp "version".toList (JSValue.string nextVersion) m
  let m := setProp "repository".toList repositoryLiteral m
  let m := setProp "homepage".toList homepageLiteral m
  let m := deleteProp "scripts".toList m
  deleteProp "volta".toList m

/-! ## The run of the script -/

/-- The function `getLatestVersion`, given what `npm view` printed or the text of
the error it failed with: the value it returns. -/
def getLatestVersion (npmView : Except Str Str) : Version :=
  match npmView with
  | Except.ok result => Version.str (trim result)
  | Except.error _ => Version.null

/-- The string a template literal shows for a value of `curVersion` -/
def versionText : Version → Str
  | Version.null => "null".toList
  | Version.undefined => "undefined".toList
  | Version.str s => s

/-- The calls of `prepare` and `publish` that may throw: the six `execSync`
subprocesses, and the in-process `readJson` and `writeFileSync` on the staged
manifest. -/
inductive Action where
  | cleanStaging
  | build
  | makeStaging
  | copyDist
  | copyFiles
  | readStaged
  | writeStaged
  | publish
  deriving DecidableEq

/-- The streams of `console` -/
inductive Level where
  | info
  | warn
  | error
  deriving DecidableEq

/-- What a run does, as seen from outside the process -/
inductive Event where
  /-- a line written by `console.info`, `console.warn` or `console.error` -/
  | console (level : Level) (text : Str)
  /-- the `execSync` call of `getLatestVersion` -/
  | query (command : Str)
  /-- an `execSync` call of `prepare` -/
  | shell (command : Str)
  /-- the `readJson` call of `prepare` on the staged manifest -/
  | readStaged
  /-- the `writeFileSync` call of `prepare`; the object is the one serialised -/
  | writeStaged (manifest : JSObject)
  /-- the `execSync` call of `publish`, run in the staging directory -/
  | publish (command : Str)
  /-- the prompt shown by `readline.question` -/
  | question (prompt : Str)
  /-- the call `readline.close()` -/
  | close

/-- The environment of one run.  The project manifest has been read: `baseName`
and `baseVersion` are its `name` and `version`. -/
structure Env where
  /-- the list `process.argv` -/
  argv : List Str
  /-- the module constant `baseName` -/
  baseName : Str
  /-- the module constant `baseVersion` -/
  baseVersion : Str
  /-- the content of `.npmrc`, when the file exists -/
  npmrc : Option Str
  /-- the output of the `npm view` query, or the text of its failure -/
  npmView : Except Str Str
  /-- the line read at the prompt; `none` when the input ends before any line is
  read, in which case the callback of `readline.question` is never called -/
  answer : Option Str
  /-- the object `readJson` returns for the staged manifest -/
  stagedManifest : JSObject
  /-- the external actions that fail in this run -/
  fails : Action → Bool

/-- The steps of `prepare(nextVersion)` in source order, each with the action
that may fail in it. -/
def prepareSteps (env : Env) (nextVersion : Str) : List (Action × Event) :=
  [(Action.cleanStaging, Event.shell "rm -rf temp/package-out".toList),
   (Action.build, Event.shell "npm run build".toList),
   (Action.makeStaging, Event.shell "mkdir -p temp/package-out/dist".toList),
   (Action.copyDist, Event.shell "cp -R dist/ temp/package-out/dist".toList),
   (Action.copyFiles, Event.shell "cp LICENSE README.md package.json temp/package-out".toList),
   (Action.readStaged, Event.readStaged),
   (Action.writeStaged,
    Event.writeStaged (rewriteManifest env.baseName nextVersion env.stagedManifest))]

/-- Steps run in order up to the first one that fails (an exception leaves the
function): the events, the failing one included, and whether all succeeded. -/
def runSteps (fails : Action → Bool) : List (Action × Event) → List Event × Bool
  | [] => ([], true)
  | (a, ev) :: rest =>
    if fails a then ([ev], false)
    else ((ev :: (runSteps fails rest).1), (runSteps fails rest).2)

/-- The command line of `publish(registry)` -/
def publishCommand (registry : Str) : Str :=
  "npm publish ".toList ++
    join " ".toList ["--access restricted".toList, "--tag latest".toList,
      "--registry ".toList ++ registry]

/-- The command line of `getLatestVersion(packageName, registry)` -/
def queryCommand (packageName registry : Str) : Str :=
  "npm view ".toList ++ packageName ++ " version --registry ".toList ++ registry

/-- The loop over `argv` that sets `buildOnly` -/
def buildOnly (argv : List Str) : Bool :=
  argv.any (fun arg => arg = "--buildOnly".toList)

/-- The function `prepare(nextVersion)`: its events, and whether it returned
(`false`: one of its calls threw). -/
def prepare (env : Env) (nextVersion : Str) : List Event × Bool :=
  runSteps env.fails (prepareSteps env nextVersion)

/-- The function `publish(registry)`: its events, and whether it returned -/
def publish (env : Env) (registry : Str) : List Event × Bool :=
  runSteps env.fails [(Action.publish, Event.publish (publishCommand registry))]

/-- The function `proceed(version)`: the events and the exit code.  An exception
that nothing catches ends the process with code 1. -/
def proceed (env : Env) (registry version : Str) : List Event × Nat :=
  let prepared := prepare env version
  if prepared.2 = false then (prepared.1, 1)
  else if buildOnly env.argv = false then
    let published := publish env registry
    (prepared.1 ++ published.1, if published.2 = false then 1 else 0)
  else
    (prepared.1 ++
      [Event.console Level.info "Build completed. Skipping publish step.".toList], 0)

/-- The test the callback of `readline.question` applies to the answer -/
def accepts (answer : Str) : Bool :=
  toLowerCase answer = "y".toList || toLowerCase answer = "yes".toList

/-- The text of the prompt -/
def promptText (curVersion : Version) (nextVersion : Str) : Str :=
  "No version specified. Use a new version (from ".toList ++ versionText curVersion ++
    " to: ".toList ++ nextVersion ++ ")? (y/n): ".toList

/-- The events of the start of the script: the greeting and one line for each
`--buildOnly` in `argv`. -/
def startEvents (argv : List Str) : List Event :=
  Event.console Level.info "Starting publish script...".toList ::
    (argv.filter (fun arg => arg = "--buildOnly".toList)).map
      (fun _ => Event.console Level.info
        "Build only mode enabled, no publishing will be done.".toList)

/-- The events of `getLatestVersion(whotfixPackageName, registry)` -/
def queryEvents (env : Env) (registry : Str) : List Event :=
  Event.query (queryCommand (whotfixPackageName env.baseName) registry) ::
    (match env.npmView with
     | Except.ok _ => []
     | Except.error e =>
       [Event.console Level.error ("Failed to get latest version: ".toList ++ e)])

/-- One run of the script from its first statement: the events in order and the
exit code of the process.  An exception that nothing catches ends the process with
code 1.  When the input ends before a line is read, the callback never runs, so
neither `process.exit` call of it is reached: the process ends with code 0 once
nothing is left to wait for. -/
def run (env : Env) : List Event × Nat :=
  match resolveRegistry env.npmrc with
  | Except.error _ => (startEvents env.argv, 1)
  | Except.ok none =>
    (startEvents env.argv ++
      [Event.console Level.warn
        "No registry found in .npmrc, using default npm registry.".toList], 1)
  | Except.ok (some registry) =>
    if registry = [] then
      (startEvents env.argv ++
        [Event.console Level.warn
          "No registry found in .npmrc, using default npm registry.".toList], 1)
    else
      let located := startEvents env.argv ++
        [Event.console Level.info ("Using registry: ".toList ++ registry)] ++
        queryEvents env registry
      let curVersion := getLatestVersion env.npmView
      match buildNextVersion env.baseVersion curVersion with
      | Except.error _ => (located, 1)
      | Except.ok nextVersion =>
        let asked := located ++ [Event.question (promptText curVersion nextVersion)]
        match env.answer with
        | none => (asked, 0)
        | some answer =>
          if accepts answer then
            let done := proceed env registry nextVersion
            (asked ++ [Event.console Level.info ("Using new version: ".toList ++ nextVersion),
                Event.close] ++ done.1, done.2)
          else
            (asked ++ [Event.console Level.error "Version not specified. Exiting.".toList,
                Event.close], 1)

/-! ## Notions of the specification -/

/-- The part of a string before the first occurrence of `sep`, the whole string
when `sep` does not occur: the first position at which `sep` starts is searched
from the left. -/
def partBeforeFirst (sep s : Str) : Str :=
  match (List.range (s.length + 1)).find? (fun i => sep.isPrefixOf (s.drop i)) with
  | some i => s.take i
  | none => s

/-- A numeric identifier of a semantic version: digits without a leading zero -/
def isNumericIdentifier (s : Str) : Bool :=
  s ≠ [] && s.all isDigit && (s = ['0'] || s.head? ≠ some '0')

/-- A character of an identifier of a semantic version -/
def isIdentifierChar (c : Char) : Bool :=
  isDigit c || (65 ≤ c.toNat && c.toNat ≤ 90) || (97 ≤ c.toNat && c.toNat ≤ 122) || c = '-'

/-- A pre-release identifier: non-empty, and numeric without leading zero when
it has digits only. -/
def isPreReleaseIdentifier (s : Str) : Bool :=
  s ≠ [] && s.all isIdentifierChar && (!(s.all isDigit) || isNumericIdentifier s)

/-- A build identifier: non-empty -/
def isBuildIdentifier (s : Str) : Bool :=
  s ≠ [] && s.all isIdentifierChar

/-- The version core `major.minor.patch`, followed or not by `-` and pre-release
identifiers. -/
def isCoreWithPreRelease (s : Str) : Bool :=
  match breakOn "-".toList s with
  | none =>
    (split ".".toList s).length = 3 && (split ".".toList s).all isNumericIdentifier
  | some (core, pre) =>
    (split ".".toList core).length = 3 && (split ".".toList core).all isNumericIdentifier &&
      (split ".".toList pre).all isPreReleaseIdentifier

/-- A semantic version (semver.org 2.0.0), the format of `baseVersion` -/
def isSemVer (s : Str) : Bool :=
  match breakOn "+".toList s with
  | none => isCoreWithPreRelease s
  | some (main, build) =>
    isCoreWithPreRelease main && (split ".".toList build).all isBuildIdentifier

/-- The answers that are `y` or `yes` up to letter case -/
def yesAnswers : List Str :=
  ["y".toList, "Y".toList,
   "yes".toList, "yeS".toList, "yEs".toList, "yES".toList,
   "Yes".toList, "YeS".toList, "YEs".toList, "YES".toList]

/-- JSON white space -/
def isJsonSpace (c : Char) : Bool :=
  c.toNat = 0x20 || c.toNat = 0x9 || c.toNat = 0xA || c.toNat = 0xD

/-- Hexadecimal digit test -/
def isHexDigit (c : Char) : Bool :=
  isDigit c || (65 ≤ c.toNat && c.toNat ≤ 70) || (97 ≤ c.toNat && c.toNat ≤ 102)

/-- The rest of a text after a JSON string, read from behind its opening quote -/
def afterJsonString : Str → Option Str
  | [] => none
  | c :: t =>
    if c = '"' then some t
    else if c = '\\' then
      match t with
      | [] => none
      | d :: u =>
        if d = 'u' then
          match u with
          | h1 :: h2 :: h3 :: h4 :: v =>
            if isHexDigit h1 && isHexDigit h2 && isHexDigit h3 && isHexDigit h4 then
              afterJsonString v
            else none
          | _ => none
        else if d = '"' || d = '\\' || d = '/' || d = 'b' || d = 'f' || d = 'n' || d = 'r' ||
            d = 't' then afterJsonString u
        else none
    else if c.toNat < 0x20 then none
    else afterJsonString t

/-- One or more decimal digits at the start of a text dropped -/
def afterDigits (s : Str) : Option Str :=
  if (s.takeWhile isDigit) = [] then none else some (s.dropWhile isDigit)

/-- The rest of a text after a JSON number -/
def afterJsonNumber (s : Str) : Option Str :=
  let s := if s.head? = some '-' then s.drop 1 else s
  let afterInt : Option Str :=
    match s with
    | c :: t => if c = '0' then some t else if isDigit c then some (t.dropWhile isDigit) else none
    | [] => none
  let afterFrac : Option Str :=
    match afterInt with
    | some ('.' :: t) => afterDigits t
    | r => r
  match afterFrac with
  | some (c :: t) =>
    if c = 'e' || c = 'E' then
      match t with
      | d :: u => if d = '+' || d = '-' then afterDigits u else afterDigits (d :: u)
      | [] => none
    else some (c :: t)
  | r => r

/-- What the recogniser reads next: a value, the elements of an array from one
element on, or the members of an object from one key on. -/
inductive JsonPart where
  | value
  | elements
  | members
  deriving DecidableEq

/-- The rest of a text after one part of the JSON grammar (ECMA-404); `fuel`
bounds the number of parts read. -/
def afterJson : Nat → JsonPart → Str → Option Str
  | 0, _, _ => none
  | fuel + 1, JsonPart.value, s =>
    match s.dropWhile isJsonSpace with
    | [] => none
    | c :: t =>
      if c = '"' then afterJsonString t
      else if c = '[' then
        match t.dropWhile isJsonSpace with
        | d :: u => if d = ']' then some u else afterJson fuel JsonPart.elements t
        | [] => none
      else if c = '\x7b' then
        match t.dropWhile isJsonSpace with
        | d :: u => if d = '\x7d' then some u else afterJson fuel JsonPart.members t
        | [] => none
      else if "true".toList.isPrefixOf (c :: t) then some ((c :: t).drop 4)
      else if "false".toList.isPrefixOf (c :: t) then some ((c :: t).drop 5)
      else if "null".toList.isPrefixOf (c :: t) then some ((c :: t).drop 4)
      else afterJsonNumber (c :: t)
  | fuel + 1, JsonPart.elements, s =>
    match afterJson fuel JsonPart.value s with
    | none => none
    | some r =>
      match r.dropWhile isJsonSpace with
      | c :: t =>
        if c = ',' then afterJson fuel JsonPart.elements t
        else if c = ']' then some t
        else none
      | [] => none
  | fuel + 1, JsonPart.members, s =>
    match s.dropWhile isJsonSpace with
    | c :: t =>
      if c = '"' then
        match afterJsonString t with
        | none => none
        | some r =>
          match r.dropWhile isJsonSpace with
          | d :: u =>
            if d = ':' then
              match afterJson fuel JsonPart.value u with
              | none => none
              | some r2 =>
                match r2.dropWhile isJsonSpace with
                | e :: v =>
                  if e = ',' then afterJson fuel JsonPart.members v
                  else if e = '\x7d' then some v
                  else none
                | [] => none
            else none
          | [] => none
      else none
    | [] => none

/-- A valid JSON text: one value between optional white space.  Every part read
takes at least one character and is entered through at most one other part, so
twice the length of the text and two is enough fuel. -/
def isJsonText (s : Str) : Bool :=
  match afterJson (2 * s.length + 2) JsonPart.value s with
  | some r => r.dropWhile isJsonSpace = []
  | none => false

/-! ## Sample runs -/

/-- A run that finds `3.2.0-hotfix.4` published and is answered `n` -/
def decliningRun : Env where
  argv := ["node".toList, "scripts/publish.js".toList]
  baseName := "oidc-client-ts".toList
  baseVersion := "3.2.0".toList
  npmrc := some "registry=https://npm.example.com/\n".toList
  npmView := Except.ok "3.2.0-hotfix.4\n".toList
  answer := some "n".toList
  stagedManifest := [("name".toList, JSValue.string "oidc-client-ts".toList),
    ("version".toList, JSValue.string "3.2.0".toList)]
  fails := fun _ => false

/-- A run that finds `3.2.0-hotfix.4` published and whose input ends at the prompt
before a line is entered, as with `node scripts/publish.js < /dev/null` -/
def closedPromptRun : Env where
  argv := ["node".toList, "scripts/publish.js".toList]
  baseName := "oidc-client-ts".toList
  baseVersion := "3.2.0".toList
  npmrc := some "registry=https://npm.example.com/\n".toList
  npmView := Except.ok "3.2.0-hotfix.4\n".toList
  answer := none
  stagedManifest := [("name".toList, JSValue.string "oidc-client-ts".toList),
    ("version".toList, JSValue.string "3.2.0".toList)]
  fails := fun _ => false

/-- A run with `--buildOnly` that finds nothing published and is answered `y` -/
def buildOnlyRun : Env where
  argv := ["node".toList, "scripts/publish.js".toList, "--buildOnly".toList]
  baseName := "oidc-client-ts".toList
  baseVersion := "3.2.0".toList
  npmrc := some "registry=https://npm.example.com/\n".toList
  npmView := Except.error "npm error code E404".toList
  answer := some "y".toList
  stagedManifest := [("name".toList, JSValue.string "oidc-client-ts".toList),
    ("version".toList, JSValue.string "3.2.0".toList)]
  fails := fun _ => false

/-- A run with `--buildOnly`, answered `y`, in which every subprocess succeeds but
`writeFileSync` on the staged manifest throws (the copy of a read-only
`package.json` is read-only). -/
def readOnlyManifestRun : Env where
  argv := ["node".toList, "scripts/publish.js".toList, "--buildOnly".toList]
  baseName := "oidc-client-ts".toList
  baseVersion := "3.2.0".toList
  npmrc := some "registry=https://npm.example.com/\n".toList
  npmView := Except.error "npm error code E404".toList
  answer := some "y".toList
  stagedManifest := [("name".toList, JSValue.string "oidc-client-ts".toList),
    ("version".toList, JSValue.string "3.2.0".toList)]
  fails := fun a => decide (a = Action.writeStaged)

/-- The run `readOnlyManifestRun` without the `--buildOnly` flag -/
def readOnlyManifestPublishRun : Env where
  argv := ["node".toList, "scripts/publish.js".toList]
  baseName := "oidc-client-ts".toList
  baseVersion := "3.2.0".toList
  npmrc := some "registry=https://npm.example.com/\n".toList
  npmView := Except.error "npm error code E404".toList
  answer := some "y".toList
  stagedManifest := [("name".toList, JSValue.string "oidc-client-ts".toList),
    ("version".toList, JSValue.string "3.2.0".toList)]
  fails := fun a => decide (a = Action.writeStaged)

/-! ## Lemmas on the string built-ins -/

theorem breakOn_some {sep : Str} : ∀ {s a b : Str}, breakOn sep s = some (a, b) →
    s = a ++ sep ++ b := by
  intro s
  induction s with
  | nil => intro a b h; simp [breakOn] at h
  | cons c t ih =>
    intro a b h
    unfold breakOn at h
    split at h
    · rename_i hp
      simp only [Option.some.injEq, Prod.mk.injEq] at h
      obtain ⟨ha, hb⟩ := h
      subst ha; subst hb
      rw [List.isPrefixOf_iff_prefix] at hp
      obtain ⟨r, hr⟩ := hp
      rw [← hr]
      simp
    · split at h
      · rename_i a' b' hab
        simp only [Option.some.injEq, Prod.mk.injEq] at h
        obtain ⟨ha, hb⟩ := h
        subst ha; subst hb
        rw [ih hab]
        simp
      · simp at h

theorem breakOn_none {sep : Str} : ∀ {s : Str}, breakOn sep s = none → s ≠ [] →
    ¬ sep <:+: s := by
  intro s
  induction s with
  | nil => intro _ h; exact absurd rfl h
  | cons c t ih =>
    intro h _ hin
    unfold breakOn at h
    split at h
    · simp at h
    · rename_i hp
      split at h
      · simp at h
      · rename_i hn
        rw [List.isPrefixOf_iff_prefix] at hp
        rcases List.infix_cons_iff.mp hin with h1 | h1
        · exact hp h1
        · by_cases ht : t = []
          · subst ht
            have : sep = [] := List.eq_nil_of_infix_nil h1
            subst this
            exact hp (List.nil_prefix)
          · exact ih hn ht h1

theorem splitFuel_fuel (sep : Str) (hsep : sep ≠ []) : ∀ (f1 f2 : Nat) (s : Str),
    s.length ≤ f1 → s.length ≤ f2 → splitFuel sep f1 s = splitFuel sep f2 s := by
  intro f1
  induction f1 with
  | zero =>
    intro f2 s h1 _
    have hs : s = [] := List.length_eq_zero.mp (Nat.le_zero.mp h1)
    subst hs
    cases f2 <;> simp [splitFuel, breakOn]
  | succ n ih =>
    intro f2 s h1 h2
    cases f2 with
    | zero =>
      have hs : s = [] := List.length_eq_zero.mp (Nat.le_zero.mp h2)
      subst hs
      simp [splitFuel, breakOn]
    | succ m =>
      simp only [splitFuel]
      cases hb : breakOn sep s with
      | none => rfl
      | some ab =>
        obtain ⟨a, b⟩ := ab
        have hs := breakOn_some hb
        have hl : 0 < sep.length := List.length_pos.mpr hsep
        have : b.length < s.length := by
          rw [hs]; simp only [List.length_append]; omega
        simp only
        rw [ih m b (by omega) (by omega)]

theorem split_unfold (sep : Str) (hsep : sep ≠ []) (s : Str) :
    split sep s =
      match breakOn sep s with
      | none => [s]
      | some (a, b) => a :: split sep b := by
  unfold split
  cases hb : breakOn sep s with
  | none =>
    cases s with
    | nil => rfl
    | cons c t => simp [splitFuel, hb]
  | some ab =>
    obtain ⟨a, b⟩ := ab
    have hs := breakOn_some hb
    have hl : 0 < sep.length := List.length_pos.mpr hsep
    have hlen : b.length < s.length := by
      rw [hs]; simp only [List.length_append]; omega
    cases hn : s.length with
    | zero => omega
    | succ n =>
      simp only [splitFuel, hb]
      rw [splitFuel_fuel sep hsep n b.length b (by omega) (le_refl _)]

theorem firstOccurrence_eq (sep : Str) (hsep : sep ≠ []) : ∀ s : Str,
    (List.range (s.length + 1)).find? (fun i => sep.isPrefixOf (s.drop i)) =
      (breakOn sep s).map (fun ab => ab.1.length) := by
  intro s
  induction s with
  | nil =>
    cases sep with
    | nil => exact absurd rfl hsep
    | cons d u => simp [breakOn, List.range_succ, List.isPrefixOf]
  | cons c t ih =>
    rw [List.length_cons, List.range_succ_eq_map, List.find?_cons]
    unfold breakOn
    by_cases hp : sep.isPrefixOf (c :: t) = true
    · simp [hp]
    · simp only [List.drop_zero, hp, Bool.false_eq_true, if_false]
      rw [List.find?_map]
      have : ((fun i => sep.isPrefixOf ((c :: t).drop i)) ∘ Nat.succ) =
          (fun i => sep.isPrefixOf (t.drop i)) := by
        funext i; simp
      rw [this, ih]
      cases breakOn sep t with
      | none => simp
      | some ab => simp

theorem partBeforeFirst_eq (sep : Str) (hsep : sep ≠ []) (s : Str) :
    partBeforeFirst sep s =
      match breakOn sep s with
      | none => s
      | some (a, _) => a := by
  unfold partBeforeFirst
  rw [firstOccurrence_eq sep hsep s]
  cases hb : breakOn sep s with
  | none => simp
  | some ab =>
    obtain ⟨a, b⟩ := ab
    have hs := breakOn_some hb
    simp only [Option.map_some']
    rw [hs]
    simp

theorem split_head (sep : Str) (hsep : sep ≠ []) (s : Str) :
    (split sep s).head? = some (partBeforeFirst sep s) := by
  rw [split_unfold sep hsep, partBeforeFirst_eq sep hsep]
  cases hb : breakOn sep s with
  | none => simp
  | some ab => simp

theorem hotfixSep_ne_nil : hotfixSep ≠ [] := by decide

theorem breakOn_eq_none (sep : Str) {s : Str} (h : ¬ sep <:+: s) : breakOn sep s = none := by
  cases hb : breakOn sep s with
  | none => rfl
  | some ab =>
    obtain ⟨a, b⟩ := ab
    exact absurd ⟨a, b, (breakOn_some hb).symm⟩ h

theorem not_prefix_of_no_overlap {h : Char} {tl : Str} (hnot : h ∉ tl) (c : Char) (a b : Str)
    (hin : ¬ (h :: tl) <:+: (c :: a)) : ¬ (h :: tl) <+: (c :: a) ++ ((h :: tl) ++ b) := by
  intro hp
  rcases List.prefix_or_prefix_of_prefix hp (List.prefix_append (c :: a) ((h :: tl) ++ b)) with h1 | h1
  · exact hin h1.isInfix
  · obtain ⟨t, ht⟩ := h1
    have hp2 : (c :: a) ++ t <+: (c :: a) ++ ((h :: tl) ++ b) := by
      rw [ht]; exact hp
    rw [List.prefix_append_right_inj] at hp2
    cases t with
    | nil =>
      rw [List.append_nil] at ht
      exact hin (ht ▸ List.infix_refl _)
    | cons d t' =>
      have hd : d = h := (List.cons_prefix_cons.mp hp2).1
      subst hd
      simp only [List.cons_append, List.cons.injEq] at ht
      apply hnot
      rw [← ht.2]
      simp

theorem breakOn_append {h : Char} {tl : Str} (hnot : h ∉ tl) (b : Str) : ∀ a : Str,
    ¬ (h :: tl) <:+: a → breakOn (h :: tl) (a ++ (h :: tl) ++ b) = some (a, b) := by
  intro a
  induction a with
  | nil =>
    intro _
    have hp : (h :: tl).isPrefixOf ((h :: tl) ++ b) = true :=
      List.isPrefixOf_iff_prefix.mpr (List.prefix_append _ _)
    simp only [List.nil_append, List.cons_append] at hp ⊢
    unfold breakOn
    rw [if_pos hp]
    simp
  | cons c a ih =>
    intro hin
    have hnp := not_prefix_of_no_overlap hnot c a b hin
    have hin' : ¬ (h :: tl) <:+: a := fun hx => hin (List.infix_cons hx)
    have hnp' : ¬ ((h :: tl).isPrefixOf (c :: (a ++ (h :: tl) ++ b)) = true) := by
      rw [List.isPrefixOf_iff_prefix]
      simpa using hnp
    simp only [List.cons_append]
    unfold breakOn
    simp only [List.cons_append] at hnp' ih
    rw [if_neg hnp', ih hin']

theorem hotfixSep_eq : hotfixSep = '-' :: "hotfix.".toList := by decide

theorem digitChar_isDigit (k : Nat) (hk : k < 10) :
    isDigit (Nat.digitChar k) = true ∧ (Nat.digitChar k).toNat - 48 = k := by
  interval_cases k <;> decide

theorem digitsValue_append (a : Str) (c : Char) :
    digitsValue (a ++ [c]) = 10 * digitsValue a + (c.toNat - 48) := by
  simp [digitsValue, List.foldl_append]

theorem toDigitsCore_spec : ∀ (fuel n : Nat) (ds : Str), n < fuel →
    ∃ pre : Str, Nat.toDigitsCore 10 fuel n ds = pre ++ ds ∧ pre ≠ [] ∧
      pre.all isDigit = true ∧ digitsValue pre = n := by
  intro fuel
  induction fuel with
  | zero => intro n ds h; omega
  | succ f ih =>
    intro n ds h
    obtain ⟨hd1, hd2⟩ := digitChar_isDigit (n % 10) (Nat.mod_lt _ (by decide))
    unfold Nat.toDigitsCore
    by_cases h0 : n / 10 = 0
    · refine ⟨[Nat.digitChar (n % 10)], by simp [h0], by simp, by simp [hd1], ?_⟩
      simp only [digitsValue, List.foldl_cons, List.foldl_nil, hd2]
      omega
    · obtain ⟨pre, hpre, hne, hall, hval⟩ :=
        ih (n / 10) (Nat.digitChar (n % 10) :: ds) (by omega)
      refine ⟨pre ++ [Nat.digitChar (n % 10)], by simp [h0, hpre], by simp, ?_, ?_⟩
      · simp [List.all_append, hall, hd1]
      · rw [digitsValue_append, hval, hd2]
        omega

theorem decimal_spec (n : Nat) :
    decimal n ≠ [] ∧ (decimal n).all isDigit = true ∧ digitsValue (decimal n) = n := by
  obtain ⟨pre, hpre, hne, hall, hval⟩ := toDigitsCore_spec (n + 1) n [] (by omega)
  unfold decimal Nat.toDigits
  rw [hpre, List.append_nil]
  exact ⟨hne, hall, hval⟩

theorem isDigit_bounds {c : Char} (h : isDigit c = true) : 48 ≤ c.toNat ∧ c.toNat ≤ 57 := by
  simpa [isDigit] using h

theorem isDigit_not_whiteSpace {c : Char} (h : isDigit c = true) : isWhiteSpace c = false := by
  obtain ⟨h1, h2⟩ := isDigit_bounds h
  simp only [isWhiteSpace, Bool.or_eq_false_iff, decide_eq_false_iff_not, Bool.and_eq_false_iff]
  omega

theorem isDigit_ne {c d : Char} (h : isDigit c = true) (hd : d.toNat < 48) : c ≠ d := by
  intro hcd
  subst hcd
  have := (isDigit_bounds h).1
  omega

theorem parseIntStr_digits (D : Str) (hne : D ≠ []) (hall : D.all isDigit = true) :
    parseIntStr D = toDouble (digitsValue D) := by
  cases D with
  | nil => exact absurd rfl hne
  | cons c t =>
    have hc : isDigit c = true := by
      simp only [List.all_cons, Bool.and_eq_true] at hall
      exact hall.1
    have hws := isDigit_not_whiteSpace hc
    have hminus : c ≠ '-' := isDigit_ne hc (by decide)
    have hplus : c ≠ '+' := isDigit_ne hc (by decide)
    have htake : (c :: t).takeWhile isDigit = c :: t := by
      rw [List.takeWhile_eq_self_iff]
      intro x hx
      exact List.all_eq_true.mp hall x hx
    unfold parseIntStr trimStart
    simp only [List.dropWhile_cons, hws, Bool.false_eq_true, if_false, List.head?_cons,
      Option.some.injEq, hminus, hplus, or_self, htake]
    simp

theorem bitLengthFuel_le : ∀ (f n k : Nat), n < 2 ^ k → bitLengthFuel f n ≤ k := by
  intro f
  induction f with
  | zero => intro n k _; simp [bitLengthFuel]
  | succ f ih =>
    intro n k h
    unfold bitLengthFuel
    by_cases h0 : n = 0
    · simp [h0]
    · rw [if_neg h0]
      cases k with
      | zero => simp at h; omega
      | succ k =>
        have : n / 2 < 2 ^ k := by
          rw [Nat.pow_succ] at h
          omega
        have := ih (n / 2) k this
        omega

theorem bitLengthFuel_spec : ∀ (f n : Nat), n ≤ f →
    n < 2 ^ bitLengthFuel f n ∧ (n ≠ 0 → 2 ^ (bitLengthFuel f n - 1) ≤ n) := by
  intro f
  induction f with
  | zero =>
    intro n h
    have : n = 0 := Nat.le_zero.mp h
    subst this
    simp [bitLengthFuel]
  | succ f ih =>
    intro n h
    unfold bitLengthFuel
    by_cases h0 : n = 0
    · subst h0
      simp
    · rw [if_neg h0]
      obtain ⟨h1, h2⟩ := ih (n / 2) (by omega)
      refine ⟨?_, fun _ => ?_⟩
      · rw [Nat.pow_succ]
        omega
      · simp only [Nat.add_sub_cancel]
        by_cases h3 : n / 2 = 0
        · rw [h3]
          have h7 : bitLengthFuel f 0 = 0 := by
            cases f <;> simp [bitLengthFuel]
          rw [h7]
          simp only [Nat.pow_zero]
          omega
        · have h4 := h2 h3
          have h5 : bitLengthFuel f (n / 2) ≠ 0 := by
            intro h6
            rw [h6] at h1
            simp at h1
            exact h3 h1
          have h6 : bitLengthFuel f (n / 2) = (bitLengthFuel f (n / 2) - 1) + 1 := by omega
          rw [h6, Nat.pow_succ]
          omega

/-- The fuel of `bitLength` is enough: a positive `n` lies between the powers of two
that its number of binary digits names. -/
theorem bitLength_spec (n : Nat) (h : n ≠ 0) :
    2 ^ (bitLength n - 1) ≤ n ∧ n < 2 ^ bitLength n :=
  ⟨(bitLengthFuel_spec n n (le_refl n)).2 h, (bitLengthFuel_spec n n (le_refl n)).1⟩

theorem roundNat_small (n : Nat) (h : n ≤ 2 ^ 53) : roundNat n = n := by
  by_cases hlt : n < 2 ^ 53
  · unfold roundNat
    rw [if_pos hlt]
  · have : n = 2 ^ 53 := by omega
    subst this
    decide

theorem toDouble_small (n : Nat) (h : n ≤ 2 ^ 53) : toDouble (n : Int) = JSNumber.int n := by
  have hb : bitLength n ≤ 54 := bitLengthFuel_le n n 54 (by
    have : (2:Nat) ^ 53 < 2 ^ 54 := by decide
    omega)
  unfold toDouble
  simp only [Int.natAbs_ofNat, roundNat_small n h]
  rw [if_neg (by omega), if_neg (by omega)]

theorem increment_small (n : Nat) (h : n < 2 ^ 53) :
    numberToString (addOne (toDouble (n : Int))) = decimal (n + 1) := by
  rw [toDouble_small n (by omega)]
  have h1 : ((n : Int) + 1) = ((n + 1 : Nat) : Int) := by push_cast; rfl
  simp only [addOne]
  rw [h1, toDouble_small (n + 1) (by omega)]
  simp only [numberToString]
  rw [if_neg (by omega)]
  simp only [Int.natAbs_ofNat, natToString]
  rw [if_pos (by omega)]

theorem split_two (sep : Str) (hsep : sep ≠ []) {s a b : Str}
    (h1 : breakOn sep s = some (a, b)) (h2 : breakOn sep b = none) :
    split sep s = [a, b] := by
  rw [split_unfold sep hsep, h1]
  simp only
  rw [split_unfold sep hsep, h2]

theorem digits_no_hotfixSep {D : Str} (hall : D.all isDigit = true) : ¬ hotfixSep <:+: D := by
  intro hin
  have hmem : '-' ∈ D := hin.subset (by decide)
  have := List.all_eq_true.mp hall '-' hmem
  exact absurd this (by decide)

theorem buildNextVersion_of_parts (B cur D : Str) (hcur : cur ≠ [])
    (hsplit : split hotfixSep cur = [B, D]) (hne : D ≠ []) (hall : D.all isDigit = true)
    (hlt : digitsValue D < 2 ^ 53) :
    buildNextVersion B (Version.str cur) =
      Except.ok (B ++ hotfixSep ++ decimal (digitsValue D + 1)) := by
  unfold buildNextVersion
  simp only [hcur, if_false, hsplit, List.head?_cons, ne_eq, not_true_eq_false]
  simp only [List.get?_cons_succ, List.get?_cons_zero, parseInt, parseIntStr_digits D hne hall,
    increment_small _ hlt, setSecond, join, List.intercalate, List.intersperse]
  simp

theorem buildNextVersion_of_head_ne (B cur : Str) (hcur : cur ≠ [])
    (hp : partBeforeFirst hotfixSep cur ≠ B) :
    buildNextVersion B (Version.str cur) = Except.error (mismatchMessage cur B) := by
  have hhead := split_head hotfixSep hotfixSep_ne_nil cur
  unfold buildNextVersion
  simp only [hcur, if_false, hhead, ne_eq, Option.some.injEq, hp, not_false_eq_true, if_true]

theorem buildNextVersion_of_head_eq (B cur : Str) (hcur : cur ≠ [])
    (hp : partBeforeFirst hotfixSep cur = B) :
    ∃ r, buildNextVersion B (Version.str cur) = Except.ok r := by
  have hhead := split_head hotfixSep hotfixSep_ne_nil cur
  unfold buildNextVersion
  simp only [hcur, if_false, hhead, hp, ne_eq, not_true_eq_false]
  exact ⟨_, rfl⟩

/-! ### Fuel of the global replace -/

theorem stringTail_length : ∀ (n : Nat) (s r : Str), s.length ≤ n → stringTail s = some r →
    r.length < s.length := by
  intro n
  induction n with
  | zero =>
    intro s r hs h
    have : s = [] := List.length_eq_zero.mp (Nat.le_zero.mp hs)
    subst this
    simp [stringTail] at h
  | succ n ih =>
    intro s r hs h
    cases s with
    | nil => simp [stringTail] at h
    | cons c t =>
      simp only [List.length_cons] at hs ⊢
      unfold stringTail at h
      simp only at h
      split at h
      · rename_i r' hesc
        simp only [Option.some.injEq] at h
        subst h
        split at hesc
        · cases t with
          | nil => simp at hesc
          | cons d u =>
            simp only at hesc
            split at hesc
            · have := ih u r' (by simp only [List.length_cons] at hs; omega) hesc
              simp only [List.length_cons]
              omega
            · simp at hesc
        · simp at hesc
      · split at h
        · rename_i r' hchar
          simp only [Option.some.injEq] at h
          subst h
          split at hchar
          · simp at hchar
          · have := ih t r' (by omega) hchar
            omega
        · split at h
          · simp only [Option.some.injEq] at h
            subst h
            omega
          · simp at h

theorem matchAt_length {c : Char} {t : Str} {m : RegexMatch} (h : matchAt (c :: t) = some m) :
    m.rest.length ≤ t.length := by
  unfold matchAt at h
  simp only at h
  split at h
  · cases t with
    | nil => simp at h
    | cons d u =>
      simp only at h
      split at h
      · simp only [Option.some.injEq] at h
        subst h
        simp
      · simp at h
  · split at h
    · cases hs : stringTail t with
      | none => rw [hs] at h; simp at h
      | some r =>
        rw [hs] at h
        simp only [Option.some.injEq] at h
        subst h
        exact Nat.le_of_lt (stringTail_length t.length t r (le_refl _) hs)
    · split at h
      · cases t with
        | nil => simp at h
        | cons d u =>
          simp only at h
          split at h
          · simp only [Option.some.injEq] at h
            subst h
            simp only [List.length_cons]
            exact Nat.le_succ_of_le (List.Sublist.length_le (List.dropWhile_sublist _))
          · split at h
            · cases hb : breakOn "*/".toList u with
              | none => rw [hb] at h; simp at h
              | some ab =>
                obtain ⟨a, b⟩ := ab
                rw [hb] at h
                simp only [Option.some.injEq] at h
                subst h
                have := congrArg List.length (breakOn_some hb)
                simp only [List.length_append, List.length_cons] at this ⊢
                omega
            · simp at h
      · simp at h

theorem replaceFuel_fuel : ∀ (f1 f2 : Nat) (s : Str), s.length ≤ f1 → s.length ≤ f2 →
    replaceFuel f1 s = replaceFuel f2 s := by
  intro f1
  induction f1 with
  | zero =>
    intro f2 s h1 _
    have hs : s = [] := List.length_eq_zero.mp (Nat.le_zero.mp h1)
    subst hs
    cases f2 <;> simp [replaceFuel]
  | succ n ih =>
    intro f2 s h1 h2
    cases f2 with
    | zero =>
      have hs : s = [] := List.length_eq_zero.mp (Nat.le_zero.mp h2)
      subst hs
      simp [replaceFuel]
    | succ m =>
      cases s with
      | nil => simp [replaceFuel]
      | cons c t =>
        simp only [List.length_cons] at h1 h2
        simp only [replaceFuel]
        cases hm : matchAt (c :: t) with
        | none =>
          simp only
          rw [ih m t (by omega) (by omega)]
        | some mt =>
          have hl := matchAt_length hm
          simp only
          rw [ih m mt.rest (by omega) (by omega)]

/-- The replace visits the text from left to right: the recursion equation that the
fuel realises. -/
theorem stripComments_cons (c : Char) (t : Str) :
    stripComments (c :: t) =
      match matchAt (c :: t) with
      | some m =>
        if m.comment then stripComments m.rest
        else (c :: t).take ((c :: t).length - m.rest.length) ++ stripComments m.rest
      | none => c :: stripComments t := by
  unfold stripComments
  simp only [List.length_cons, replaceFuel]
  cases hm : matchAt (c :: t) with
  | none => rfl
  | some mt =>
    have hl := matchAt_length hm
    simp only
    rw [replaceFuel_fuel t.length mt.rest.length mt.rest hl (le_refl _)]

/-- The two examples of the specification: a string value that contains `//` is
kept, and a line comment after the value is removed. -/
theorem stripComments_examples :
    stripComments "\x7b\"url\": \"http://x\"\x7d".toList = "\x7b\"url\": \"http://x\"\x7d".toList ∧
    stripComments "\x7b\"a\":1\x7d // comment".toList = "\x7b\"a\":1\x7d ".toList := by
  decide

/-! ### What `resolveRegistry` returns -/

theorem registry_line_parts (line : Str) (h : startsWith "registry=".toList line = true) :
    (split "=".toList line).get? 1 =
      some (partBeforeFirst "=".toList (line.drop "registry=".length)) := by
  unfold startsWith at h
  rw [List.isPrefixOf_iff_prefix] at h
  obtain ⟨rest, hrest⟩ := h
  subst hrest
  have hdrop : ("registry=".toList ++ rest).drop "registry=".length = rest :=
    List.drop_left _ _
  have hb : breakOn "=".toList ("registry=".toList ++ rest) = some ("registry".toList, rest) := by
    have h1 : "registry=".toList ++ rest = "registry".toList ++ ['='] ++ rest := by
      have : "registry=".toList = "registry".toList ++ ['='] := by decide
      rw [this]
    have h2 : "=".toList = ['='] := by decide
    rw [h1, h2]
    exact breakOn_append (by simp) rest "registry".toList (by decide)
  rw [hdrop, split_unfold "=".toList (by decide), hb]
  simp only [List.get?_cons_succ]
  have hh := split_head "=".toList (by decide) rest
  cases hsp : split "=".toList rest with
  | nil => rw [hsp] at hh; simp at hh
  | cons p ps =>
    rw [hsp] at hh
    simpa using hh

/-- The value `resolveRegistry` returns for a configuration file: `null` when no
line starts with `registry=`, and otherwise the trimmed text of the first such line
between the `=` of `registry=` and the next `=`, or the end of the line.  It never
throws. -/
theorem resolveRegistry_value (npmrcContent : Str) :
    resolveRegistry (some npmrcContent) =
      Except.ok (((split "\n".toList npmrcContent).find? (startsWith "registry=".toList)).map
        (fun line => trim (partBeforeFirst "=".toList (line.drop "registry=".length)))) := by
  unfold resolveRegistry
  simp only
  generalize split "\n".toList npmrcContent = lines
  induction lines with
  | nil => rfl
  | cons line rest ih =>
    unfold registryOfLines
    by_cases h : startsWith "registry=".toList line = true
    · rw [if_pos h, registry_line_parts line h, List.find?_cons, h]
      rfl
    · rw [if_neg h, ih, List.find?_cons]
      rw [Bool.not_eq_true] at h
      rw [h]

theorem buildNextVersion_begins (B : Str) (cur : Version) (r : Str)
    (hr : buildNextVersion B cur = Except.ok r) : (B ++ hotfixSep) <+: r := by
  have hone : (B ++ hotfixSep) <+: (B ++ "-hotfix.1".toList) :=
    (List.prefix_append_right_inj B).mpr (by decide)
  cases cur with
  | null =>
    simp only [buildNextVersion, Except.ok.injEq] at hr
    rw [← hr]; exact hone
  | undefined =>
    simp only [buildNextVersion, Except.ok.injEq] at hr
    rw [← hr]; exact hone
  | str cur =>
    by_cases hcur : cur = []
    · subst hcur
      simp only [buildNextVersion, if_true, Except.ok.injEq] at hr
      rw [← hr]; exact hone
    · unfold buildNextVersion at hr
      simp only [hcur, if_false] at hr
      split at hr
      · exact Except.noConfusion hr
      · rename_i hhead
        simp only [ne_eq, Decidable.not_not] at hhead
        simp only [Except.ok.injEq] at hr
        rw [← hr]
        cases hparts : split hotfixSep cur with
        | nil => rw [hparts] at hhead; simp at hhead
        | cons a rest =>
          rw [hparts] at hhead
          simp only [List.head?_cons, Option.some.injEq] at hhead
          subst hhead
          cases rest with
          | nil =>
            simp only [setSecond, join, List.intercalate, List.intersperse, List.flatten,
              List.append_nil]
            rw [List.prefix_append_right_inj]
            exact List.prefix_append _ _
          | cons b rest2 =>
            simp only [setSecond, join, List.intercalate, List.intersperse, List.flatten]
            rw [List.prefix_append_right_inj]
            exact List.prefix_append _ _

/-! ### Number formatting and the shape of the returned version -/

theorem toDigitsCore_size : ∀ (fuel n : Nat) (ds : Str), n < fuel →
    ∃ pre : Str, Nat.toDigitsCore 10 fuel n ds = pre ++ ds ∧ n < 10 ^ pre.length ∧
      (n ≠ 0 → 10 ^ (pre.length - 1) ≤ n) := by
  intro fuel
  induction fuel with
  | zero => intro n ds h; omega
  | succ f ih =>
    intro n ds h
    unfold Nat.toDigitsCore
    by_cases h0 : n / 10 = 0
    · refine ⟨[Nat.digitChar (n % 10)], by simp [h0], ?_, ?_⟩
      · simp only [List.length_singleton, Nat.pow_one]
        omega
      · intro hn
        simp only [List.length_singleton, Nat.sub_self, Nat.pow_zero]
        omega
    · obtain ⟨pre, hpre, hlt, hge⟩ := ih (n / 10) (Nat.digitChar (n % 10) :: ds) (by omega)
      refine ⟨pre ++ [Nat.digitChar (n % 10)], by simp [h0, hpre], ?_, ?_⟩
      · simp only [List.length_append, List.length_singleton, Nat.pow_succ]
        omega
      · intro _
        have h1 := hge h0
        have hlen : pre.length ≠ 0 := by
          intro hz
          rw [hz] at hlt
          simp only [Nat.pow_zero] at hlt
          omega
        simp only [List.length_append, List.length_singleton, Nat.add_sub_cancel]
        have h2 : pre.length = (pre.length - 1) + 1 := by omega
        rw [h2, Nat.pow_succ]
        omega

theorem decimal_size (n : Nat) :
    n < 10 ^ (decimal n).length ∧ (n ≠ 0 → 10 ^ ((decimal n).length - 1) ≤ n) := by
  obtain ⟨pre, hpre, hlt, hge⟩ := toDigitsCore_size (n + 1) n [] (by omega)
  unfold decimal Nat.toDigits
  rw [hpre, List.append_nil]
  exact ⟨hlt, hge⟩

theorem decimal_length_le (n : Nat) (h : n < 10 ^ 21) : (decimal n).length ≤ 21 := by
  by_cases h0 : n = 0
  · subst h0
    decide
  · by_contra hlen
    have h1 := (decimal_size n).2 h0
    have h2 : 10 ^ 21 ≤ 10 ^ ((decimal n).length - 1) :=
      Nat.pow_le_pow_right (by decide) (by omega)
    omega

theorem lt_of_decimal_length_le (n : Nat) (h : (decimal n).length ≤ 21) : n < 10 ^ 21 := by
  have h1 := (decimal_size n).1
  have h2 : 10 ^ (decimal n).length ≤ 10 ^ 21 := Nat.pow_le_pow_right (by decide) h
  omega

theorem decimal_injective {a b : Nat} (h : decimal a = decimal b) : a = b := by
  have h1 := (decimal_spec a).2.2
  rw [h, (decimal_spec b).2.2] at h1
  exact h1.symm

theorem roundNat_cases (n : Nat) (h : 2 ^ 53 ≤ n) :
    roundNat n = n / 2 ^ (bitLength n - 53) * 2 ^ (bitLength n - 53) ∨
    roundNat n = (n / 2 ^ (bitLength n - 53) + 1) * 2 ^ (bitLength n - 53) := by
  unfold roundNat
  rw [if_neg (by omega)]
  simp only
  split
  · exact Or.inl rfl
  · split
    · exact Or.inr rfl
    · split
      · exact Or.inl rfl
      · exact Or.inr rfl

theorem bitLength_ge (n k : Nat) (h : 2 ^ k ≤ n) : k < bitLength n := by
  have hn : n ≠ 0 := by
    have : 0 < 2 ^ k := Nat.pos_pow_of_pos k (by decide)
    omega
  have h1 := (bitLength_spec n hn).2
  by_contra hlt
  have : 2 ^ bitLength n ≤ 2 ^ k := Nat.pow_le_pow_right (by decide) (by omega)
  omega

theorem bitLength_le (n k : Nat) (h : n < 2 ^ k) : bitLength n ≤ k :=
  bitLengthFuel_le n n k h

theorem roundNat_at_70 (v : Nat) (hb : bitLength v = 70) :
    (10 ^ 21 ≤ v → 10 ^ 21 ≤ roundNat v) ∧ (v ≤ 10 ^ 21 → roundNat v ≤ 10 ^ 21) := by
  have hv : 2 ^ 53 ≤ v := by
    by_contra hlt
    have := bitLength_le v 53 (by omega)
    omega
  unfold roundNat
  rw [if_neg (by omega)]
  simp only [hb]
  norm_num
  constructor
  · intro h
    split_ifs <;> omega
  · intro h
    split_ifs <;> omega

theorem roundNat_ge_of_ge (v : Nat) (h : 10 ^ 21 ≤ v) : 10 ^ 21 ≤ roundNat v := by
  have h69 : (2:Nat) ^ 69 ≤ 10 ^ 21 := by decide
  have hb : 69 < bitLength v := bitLength_ge v 69 (by omega)
  by_cases hb70 : bitLength v = 70
  · exact (roundNat_at_70 v hb70).1 h
  · have hv : 2 ^ 53 ≤ v := by
      have : (2:Nat) ^ 53 ≤ 2 ^ 69 := by decide
      omega
    have hn : v ≠ 0 := by
      have : 0 < (2:Nat) ^ 53 := by decide
      omega
    have hlow := (bitLength_spec v hn).1
    have hpow : 2 ^ (bitLength v - 1) = 2 ^ 52 * 2 ^ (bitLength v - 53) := by
      rw [← Nat.pow_add]
      congr 1
      omega
    have hq : 2 ^ 52 ≤ v / 2 ^ (bitLength v - 53) := by
      rw [Nat.le_div_iff_mul_le (Nat.pos_pow_of_pos _ (by decide))]
      rw [← hpow]
      exact hlow
    have hmul : 2 ^ 52 * 2 ^ (bitLength v - 53) ≤
        v / 2 ^ (bitLength v - 53) * 2 ^ (bitLength v - 53) :=
      Nat.mul_le_mul_right _ hq
    have h70 : (2:Nat) ^ 70 ≤ 2 ^ (bitLength v - 1) :=
      Nat.pow_le_pow_right (by decide) (by omega)
    have hT : (10:Nat) ^ 21 ≤ 2 ^ 70 := by decide
    have hstep : v / 2 ^ (bitLength v - 53) * 2 ^ (bitLength v - 53) ≤
        (v / 2 ^ (bitLength v - 53) + 1) * 2 ^ (bitLength v - 53) :=
      Nat.mul_le_mul_right _ (Nat.le_succ _)
    rcases roundNat_cases v hv with hr | hr <;> rw [hr] <;> omega

theorem roundNat_le_of_le (v : Nat) (h : v ≤ 10 ^ 21) : roundNat v ≤ 10 ^ 21 := by
  by_cases hv : v < 2 ^ 53
  · unfold roundNat
    rw [if_pos hv]
    exact h
  · have hT : (10:Nat) ^ 21 < 2 ^ 70 := by decide
    have hb : bitLength v ≤ 70 := bitLength_le v 70 (by omega)
    by_cases hb70 : bitLength v = 70
    · exact (roundNat_at_70 v hb70).2 h
    · have hn : v ≠ 0 := by
        have : 0 < (2:Nat) ^ 53 := by decide
        omega
      have hup := (bitLength_spec v hn).2
      have hb54 : 53 < bitLength v := bitLength_ge v 53 (by omega)
      have hpow : 2 ^ bitLength v = 2 ^ 53 * 2 ^ (bitLength v - 53) := by
        rw [← Nat.pow_add]
        congr 1
        omega
      have hq : v / 2 ^ (bitLength v - 53) < 2 ^ 53 := by
        rw [Nat.div_lt_iff_lt_mul (Nat.pos_pow_of_pos _ (by decide))]
        rw [← hpow]
        exact hup
      have hmul : (v / 2 ^ (bitLength v - 53) + 1) * 2 ^ (bitLength v - 53) ≤
          2 ^ 53 * 2 ^ (bitLength v - 53) :=
        Nat.mul_le_mul_right _ hq
      have h69 : 2 ^ bitLength v ≤ (2:Nat) ^ 69 :=
        Nat.pow_le_pow_right (by decide) (by omega)
      have hT2 : (2:Nat) ^ 69 ≤ 10 ^ 21 := by decide
      have hstep : v / 2 ^ (bitLength v - 53) * 2 ^ (bitLength v - 53) ≤
          (v / 2 ^ (bitLength v - 53) + 1) * 2 ^ (bitLength v - 53) :=
        Nat.mul_le_mul_right _ (Nat.le_succ _)
      rcases roundNat_cases v (by omega) with hr | hr <;> rw [hr] <;> omega

theorem pickClosest_mem (x k : Nat) : ∀ (l : List Nat) (v : Nat),
    pickClosest x k l = some v → v ∈ l := by
  intro l v h
  match l with
  | [] => simp [pickClosest] at h
  | [a] =>
    simp only [pickClosest, Option.some.injEq] at h
    simp [h]
  | lo :: hi :: rest =>
    simp only [pickClosest] at h
    split at h
    · simp only [Option.some.injEq] at h
      simp [h]
    · split at h
      · simp only [Option.some.injEq] at h
        simp [h]
      · split at h
        · simp only [Option.some.injEq] at h
          simp [h]
        · simp only [Option.some.injEq] at h
          simp [h]

theorem shortest_spec (x : Nat) : shortest x = x ∨ roundNat (shortest x) = x := by
  unfold shortest
  cases hf : (List.range' 1 (decimal x).length).findSome?
      (fun k => pickClosest x k (shortestCandidates x k)) with
  | none => exact Or.inl rfl
  | some v =>
    right
    obtain ⟨k, _, hk⟩ := List.exists_of_findSome?_eq_some hf
    have hmem := pickClosest_mem x k _ v hk
    unfold shortestCandidates at hmem
    simp only [List.mem_filter, decide_eq_true_eq] at hmem
    exact hmem.2

theorem digitsValue_zeros : ∀ l : Str, (∀ c ∈ l, c = '0') → digitsValue l = 0 := by
  intro l
  induction l with
  | nil => intro _; rfl
  | cons c t ih =>
    intro h
    have hc : c = '0' := h c (List.mem_cons_self _ _)
    have ht := ih (fun d hd => h d (List.mem_cons_of_mem _ hd))
    subst hc
    simp only [digitsValue, List.foldl_cons] at ht ⊢
    exact ht

theorem not_decimal_of_mem {s : Str} {c : Char} (hc : c ∈ s) (hd : isDigit c = false) (N : Nat) :
    s ≠ decimal N := by
  intro h
  have := List.all_eq_true.mp (decimal_spec N).2.1 c (h ▸ hc)
  rw [hd] at this
  exact Bool.noConfusion this

theorem natToString_small (m : Nat) (h0 : 0 < m) (hT : m < 10 ^ 21) :
    ∃ N : Nat, 0 < N ∧ natToString m = decimal N := by
  by_cases hm : m ≤ 2 ^ 53
  · exact ⟨m, h0, by unfold natToString; rw [if_pos hm]⟩
  · have hlt : shortest m < 10 ^ 21 := by
      rcases shortest_spec m with h | h
      · rw [h]; exact hT
      · by_contra hge
        have := roundNat_ge_of_ge (shortest m) (by omega)
        omega
    have hpos : 0 < shortest m := by
      rcases shortest_spec m with h | h
      · rw [h]; exact h0
      · by_contra hz
        have hz0 : shortest m = 0 := by omega
        rw [hz0] at h
        have : roundNat 0 = 0 := by decide
        omega
    refine ⟨shortest m, hpos, ?_⟩
    unfold natToString
    rw [if_neg hm]
    simp only
    rw [if_pos (decimal_length_le _ hlt)]

theorem natToString_decimal (m N : Nat) (hN : 0 < N) (h : natToString m = decimal N) :
    0 < m ∧ m < 10 ^ 21 := by
  by_cases hm : m ≤ 2 ^ 53
  · have h53 : (2:Nat) ^ 53 < 10 ^ 21 := by decide
    refine ⟨?_, by omega⟩
    unfold natToString at h
    rw [if_pos hm] at h
    have := decimal_injective h
    omega
  · refine ⟨by omega, ?_⟩
    unfold natToString at h
    rw [if_neg hm] at h
    simp only at h
    split at h
    · rename_i hlen
      have hlt := lt_of_decimal_length_le _ hlen
      rcases shortest_spec m with hs | hs
      · rw [hs] at hlt; exact hlt
      · have hle := roundNat_le_of_le (shortest m) (by omega)
        rw [hs] at hle
        by_contra hge
        have hmT : m = 10 ^ 21 := by omega
        have hsT : shortest (10 ^ 21) = 10 ^ 21 := by decide
        rw [hmT, hsT] at hlt
        omega
    · rename_i hlen
      split at h
      · rename_i hstrip
        exfalso
        unfold stripTrailingZeros at hstrip
        rw [List.reverse_eq_nil_iff, List.dropWhile_eq_nil_iff] at hstrip
        have hz : ∀ c ∈ decimal (shortest m), c = '0' := by
          intro c hc
          have := hstrip c (List.mem_reverse.mpr hc)
          simpa using this
        have h0 := digitsValue_zeros _ hz
        rw [(decimal_spec (shortest m)).2.2] at h0
        rw [h0] at hlen
        exact hlen (by decide)
      · exfalso
        exact not_decimal_of_mem (c := 'e') (by simp [List.mem_cons]) (by decide) N h
      · exfalso
        exact not_decimal_of_mem (c := '.') (by simp [List.mem_cons]) (by decide) N h

theorem numberToString_decimal_iff (x : JSNumber) :
    (∃ N : Nat, 0 < N ∧ numberToString x = decimal N) ↔
      ∃ m : Int, x = JSNumber.int m ∧ 0 < m ∧ m < 10 ^ 21 := by
  constructor
  · rintro ⟨N, hN, h⟩
    cases x with
    | nan =>
      exact absurd h (not_decimal_of_mem (c := 'N') (by decide) (by decide) N)
    | inf b =>
      cases b
      · exact absurd h (not_decimal_of_mem (c := 'I') (by decide) (by decide) N)
      · exact absurd h (not_decimal_of_mem (c := 'I') (by decide) (by decide) N)
    | int z =>
      refine ⟨z, rfl, ?_⟩
      simp only [numberToString] at h
      split at h
      · exact absurd h (not_decimal_of_mem (c := '-') (by simp) (by decide) N)
      · rename_i hz
        obtain ⟨n, hn⟩ := Int.eq_ofNat_of_zero_le (by omega : 0 ≤ z)
        subst hn
        simp only [Int.natAbs_ofNat] at h
        have := natToString_decimal n N hN h
        constructor
        · omega
        · have h2 : ((10 ^ 21 : Nat) : Int) = 10 ^ 21 := by norm_num
          omega
  · rintro ⟨m, hx, h0, hT⟩
    subst hx
    obtain ⟨n, hn⟩ := Int.eq_ofNat_of_zero_le (by omega : 0 ≤ m)
    subst hn
    have h2 : ((10 ^ 21 : Nat) : Int) = 10 ^ 21 := by norm_num
    obtain ⟨N, hN, h⟩ := natToString_small n (by omega) (by omega)
    refine ⟨N, hN, ?_⟩
    simp only [numberToString]
    rw [if_neg (by omega)]
    simpa using h

theorem buildNextVersion_two_parts (B cur S : Str) (hcur : cur ≠ [])
    (hsplit : split hotfixSep cur = [B, S]) :
    buildNextVersion B (Version.str cur) =
      Except.ok (B ++ hotfixSep ++ numberToString (addOne (parseIntStr S))) := by
  unfold buildNextVersion
  simp only [hcur, if_false, hsplit, List.head?_cons, ne_eq, not_true_eq_false]
  simp only [List.get?_cons_succ, List.get?_cons_zero, parseInt, setSecond, join,
    List.intercalate, List.intersperse]
  simp

theorem split_eq_two (sep : Str) (hsep : sep ≠ []) {c a b : Str}
    (h : split sep c = [a, b]) : c = a ++ sep ++ b ∧ ¬ sep <:+: b := by
  rw [split_unfold sep hsep] at h
  cases hb : breakOn sep c with
  | none => rw [hb] at h; simp at h
  | some ab =>
    obtain ⟨a', b'⟩ := ab
    rw [hb] at h
    simp only [List.cons.injEq] at h
    obtain ⟨ha, hrest⟩ := h
    subst ha
    rw [split_unfold sep hsep] at hrest
    cases hb2 : breakOn sep b' with
    | some ab2 =>
      rw [hb2] at hrest
      simp only [List.cons.injEq] at hrest
      have := congrArg List.length hrest.2
      rw [split_unfold sep hsep] at this
      cases hb3 : breakOn sep ab2.2 <;> rw [hb3] at this <;> simp at this
    | none =>
      rw [hb2] at hrest
      simp only [List.cons.injEq, and_true] at hrest
      subst hrest
      refine ⟨breakOn_some hb, ?_⟩
      by_cases hnil : b' = []
      · subst hnil
        intro hin
        exact hsep (List.eq_nil_of_infix_nil hin)
      · exact breakOn_none hb2 hnil

theorem split_of_accepted (B S r : Str)
    (hr : buildNextVersion B (Version.str (B ++ hotfixSep ++ S)) = Except.ok r)
    (hS : ¬ hotfixSep <:+: S) : split hotfixSep (B ++ hotfixSep ++ S) = [B, S] := by
  have hne : B ++ hotfixSep ++ S ≠ [] := by
    intro h
    have := congrArg List.length h
    simp [hotfixSep] at this
  have hp : partBeforeFirst hotfixSep (B ++ hotfixSep ++ S) = B := by
    by_contra hp
    rw [buildNextVersion_of_head_ne B _ hne hp] at hr
    exact Except.noConfusion hr
  rw [partBeforeFirst_eq hotfixSep hotfixSep_ne_nil] at hp
  cases hb : breakOn hotfixSep (B ++ hotfixSep ++ S) with
  | none => exact absurd (List.infix_append B hotfixSep S) (breakOn_none hb hne)
  | some ab =>
    obtain ⟨a, b⟩ := ab
    rw [hb] at hp
    simp only at hp
    subst hp
    have hbS : b = S := (List.append_cancel_left (breakOn_some hb)).symm
    subst hbS
    exact split_two hotfixSep hotfixSep_ne_nil hb (breakOn_eq_none hotfixSep hS)

theorem wellFormed_source (B cur r : Str) (hcur : cur ≠ [])
    (hr : buildNextVersion B (Version.str cur) = Except.ok r) (N : Nat)
    (hwf : r = B ++ hotfixSep ++ decimal N) :
    ∃ S : Str, cur = B ++ hotfixSep ++ S ∧ ¬ hotfixSep <:+: S ∧
      numberToString (addOne (parseIntStr S)) = decimal N := by
  have hhead : (split hotfixSep cur).head? = some B := by
    rw [split_head hotfixSep hotfixSep_ne_nil]
    by_contra hp
    have hp2 : partBeforeFirst hotfixSep cur ≠ B := fun h => hp (by rw [h])
    rw [buildNextVersion_of_head_ne B _ hcur hp2] at hr
    exact Except.noConfusion hr
  cases hparts : split hotfixSep cur with
  | nil => rw [hparts] at hhead; simp at hhead
  | cons a rest =>
    rw [hparts] at hhead
    simp only [List.head?_cons, Option.some.injEq] at hhead
    subst hhead
    unfold buildNextVersion at hr
    simp only [hcur, if_false, hparts, List.head?_cons, ne_eq, not_true_eq_false,
      Except.ok.injEq] at hr
    cases rest with
    | nil =>
      exfalso
      have hnan : numberToString (addOne (parseInt none)) = "NaN".toList := by decide
      simp only [List.get?_cons_succ, List.get?_nil, hnan, setSecond, join, List.intercalate,
        List.intersperse, List.flatten, List.append_nil] at hr
      rw [hwf, List.append_assoc] at hr
      have h2 := List.append_cancel_left (List.append_cancel_left hr)
      exact not_decimal_of_mem (c := 'N') (by decide) (by decide) N h2
    | cons S rest2 =>
      cases rest2 with
      | nil =>
        refine ⟨S, (split_eq_two hotfixSep hotfixSep_ne_nil hparts).1,
          (split_eq_two hotfixSep hotfixSep_ne_nil hparts).2, ?_⟩
        simp only [setSecond, join, List.intercalate, List.intersperse, List.flatten,
          List.append_nil, List.get?_cons_succ, List.get?_cons_zero, parseInt] at hr
        rw [hwf, List.append_assoc] at hr
        exact List.append_cancel_left (List.append_cancel_left hr)
      | cons T rest3 =>
        exfalso
        simp only [setSecond, join, List.intercalate, List.intersperse, List.flatten] at hr
        rw [hwf, List.append_assoc] at hr
        have h2 := List.append_cancel_left (List.append_cancel_left hr)
        refine not_decimal_of_mem (c := '-') ?_ (by decide) N h2
        rw [List.mem_append]
        right
        rw [List.mem_append]
        left
        decide

theorem roundNat_ge_pow (v : Nat) (hv : 2 ^ 53 ≤ v) : 2 ^ (bitLength v - 1) ≤ roundNat v := by
  have hn : v ≠ 0 := by
    have : 0 < (2:Nat) ^ 53 := by decide
    omega
  have hb54 : 53 < bitLength v := bitLength_ge v 53 hv
  have hlow := (bitLength_spec v hn).1
  have hpow : 2 ^ (bitLength v - 1) = 2 ^ 52 * 2 ^ (bitLength v - 53) := by
    rw [← Nat.pow_add]
    congr 1
    omega
  have hq : 2 ^ 52 ≤ v / 2 ^ (bitLength v - 53) := by
    rw [Nat.le_div_iff_mul_le (Nat.pos_pow_of_pos _ (by decide))]
    rw [← hpow]
    exact hlow
  have hmul : 2 ^ 52 * 2 ^ (bitLength v - 53) ≤
      v / 2 ^ (bitLength v - 53) * 2 ^ (bitLength v - 53) :=
    Nat.mul_le_mul_right _ hq
  have hstep : v / 2 ^ (bitLength v - 53) * 2 ^ (bitLength v - 53) ≤
      (v / 2 ^ (bitLength v - 53) + 1) * 2 ^ (bitLength v - 53) :=
    Nat.mul_le_mul_right _ (Nat.le_succ _)
  rcases roundNat_cases v hv with hr | hr <;> rw [hr] <;> omega

theorem roundNat_pos (v : Nat) (h : 0 < v) : 0 < roundNat v := by
  by_cases hv : v < 2 ^ 53
  · unfold roundNat
    rw [if_pos hv]
    exact h
  · have := roundNat_ge_pow v (by omega)
    have hp : 0 < 2 ^ (bitLength v - 1) := Nat.pos_pow_of_pos _ (by decide)
    omega

theorem roundNat_le_pow (v : Nat) (hv : 2 ^ 53 ≤ v) : roundNat v ≤ 2 ^ bitLength v := by
  have hn : v ≠ 0 := by
    have : 0 < (2:Nat) ^ 53 := by decide
    omega
  have hup := (bitLength_spec v hn).2
  have hb54 : 53 < bitLength v := bitLength_ge v 53 hv
  have hpow : 2 ^ bitLength v = 2 ^ 53 * 2 ^ (bitLength v - 53) := by
    rw [← Nat.pow_add]
    congr 1
    omega
  have hq : v / 2 ^ (bitLength v - 53) < 2 ^ 53 := by
    rw [Nat.div_lt_iff_lt_mul (Nat.pos_pow_of_pos _ (by decide))]
    rw [← hpow]
    exact hup
  have hmul : (v / 2 ^ (bitLength v - 53) + 1) * 2 ^ (bitLength v - 53) ≤
      2 ^ 53 * 2 ^ (bitLength v - 53) :=
    Nat.mul_le_mul_right _ hq
  have hstep : v / 2 ^ (bitLength v - 53) * 2 ^ (bitLength v - 53) ≤
      (v / 2 ^ (bitLength v - 53) + 1) * 2 ^ (bitLength v - 53) :=
    Nat.mul_le_mul_right _ (Nat.le_succ _)
  rcases roundNat_cases v hv with hr | hr <;> rw [hr] <;> omega

/-- Below `10 ^ 21 - 65536`, the midpoint under the double `10 ^ 21`, a number
rounds to a double under `10 ^ 21`, the largest of which is `10 ^ 21 - 131072`. -/
theorem roundNat_below (v : Nat) (h : v < 10 ^ 21 - 65536) : roundNat v ≤ 10 ^ 21 - 131072 := by
  by_cases hv : v < 2 ^ 53
  · unfold roundNat
    rw [if_pos hv]
    have : (2:Nat) ^ 53 ≤ 10 ^ 21 - 131072 := by decide
    omega
  · have hT : (10:Nat) ^ 21 < 2 ^ 70 := by decide
    have hb : bitLength v ≤ 70 := bitLength_le v 70 (by omega)
    by_cases hb70 : bitLength v = 70
    · unfold roundNat
      rw [if_neg hv]
      simp only [hb70]
      norm_num at h ⊢
      split_ifs <;> omega
    · have h1 := roundNat_le_pow v (by omega)
      have h69 : 2 ^ bitLength v ≤ (2:Nat) ^ 69 :=
        Nat.pow_le_pow_right (by decide) (by omega)
      have hT2 : (2:Nat) ^ 69 ≤ 10 ^ 21 - 131072 := by decide
      omega

theorem toDouble_below (n : Nat) (h : n < 10 ^ 21 - 65536) :
    toDouble (n : Int) = JSNumber.int (roundNat n) ∧ roundNat n ≤ 10 ^ 21 - 131072 := by
  have hr := roundNat_below n h
  have hb : bitLength (roundNat n) ≤ 70 := bitLength_le _ 70 (by
    have : (10:Nat) ^ 21 < 2 ^ 70 := by decide
    omega)
  refine ⟨?_, hr⟩
  unfold toDouble
  simp only [Int.natAbs_ofNat]
  rw [if_neg (by omega), if_neg (by omega)]

/-- A non-empty string of decimal digits whose value is below `10 ^ 21 - 65536` is
read and incremented to a positive number below `10 ^ 21`. -/
theorem increment_of_digits (D : Str) (hne : D ≠ []) (hall : D.all isDigit = true)
    (hlt : digitsValue D < 10 ^ 21 - 65536) :
    ∃ m : Int, addOne (parseIntStr D) = JSNumber.int m ∧ 0 < m ∧ m < 10 ^ 21 := by
  obtain ⟨h1, h2⟩ := toDouble_below (digitsValue D) hlt
  have h3 : ((roundNat (digitsValue D) : Nat) : Int) + 1 =
      ((roundNat (digitsValue D) + 1 : Nat) : Int) := by push_cast; rfl
  have hT : (131072:Nat) ≤ 10 ^ 21 := by decide
  obtain ⟨h4, h5⟩ := toDouble_below (roundNat (digitsValue D) + 1) (by omega)
  have h6 := roundNat_pos (roundNat (digitsValue D) + 1) (by omega)
  refine ⟨(roundNat (roundNat (digitsValue D) + 1) : Nat), ?_, by omega, ?_⟩
  · rw [parseIntStr_digits D hne hall, h1]
    simp only [addOne]
    rw [h3, h4]
  · have h7 : ((10 ^ 21 : Nat) : Int) = 10 ^ 21 := by norm_num
    omega

/-! ## Claims on `buildNextVersion` -/

/-- C1, as amended: for every base version `B` that does not contain the separator
`-hotfix.` and every positive integer `N` below `2 ^ 53`, `buildNextVersion` applied
to `B-hotfix.N` returns exactly `B-hotfix.(N+1)`. -/
theorem buildNextVersion_successor (B : Str) (N : Nat) (hB : ¬ hotfixSep <:+: B)
    (_hpos : 0 < N) (hN : N < 2 ^ 53) :
    buildNextVersion B (Version.str (B ++ hotfixSep ++ decimal N)) =
      Except.ok (B ++ hotfixSep ++ decimal (N + 1)) := by
  obtain ⟨hne, hall, hval⟩ := decimal_spec N
  have h1 : breakOn hotfixSep (B ++ hotfixSep ++ decimal N) = some (B, decimal N) := by
    rw [hotfixSep_eq] at hB ⊢
    exact breakOn_append (by decide) (decimal N) B hB
  have h2 : breakOn hotfixSep (decimal N) = none :=
    breakOn_eq_none hotfixSep (digits_no_hotfixSep hall)
  have hcur : B ++ hotfixSep ++ decimal N ≠ [] := by
    intro h
    have := congrArg List.length h
    simp [hotfixSep] at this
  have h := buildNextVersion_of_parts B (B ++ hotfixSep ++ decimal N) (decimal N) hcur
    (split_two hotfixSep hotfixSep_ne_nil h1 h2) hne hall (by rw [hval]; exact hN)
  rw [hval] at h
  exact h

/-- C1, witness: base `3.2.0` and hotfix number 4 -/
theorem buildNextVersion_successor_witness :
    buildNextVersion "3.2.0".toList (Version.str ("3.2.0".toList ++ hotfixSep ++ decimal 4)) =
      Except.ok ("3.2.0".toList ++ hotfixSep ++ decimal (4 + 1)) :=
  buildNextVersion_successor "3.2.0".toList 4 (by decide) (by decide) (by decide)

/-- C1, as stated, fails: the semantic version `1.0.0-hotfix.2` as base makes the
call on `1.0.0-hotfix.2-hotfix.3` throw, and on `3.2.0-hotfix.9007199254740992` the
number is returned unchanged, since `2 ^ 53 + 1` is not a double. -/
theorem buildNextVersion_successor_counterexample :
    (isSemVer "1.0.0-hotfix.2".toList = true ∧
      buildNextVersion "1.0.0-hotfix.2".toList
          (Version.str ("1.0.0-hotfix.2".toList ++ hotfixSep ++ decimal 3)) =
        Except.error (mismatchMessage "1.0.0-hotfix.2-hotfix.3".toList "1.0.0-hotfix.2".toList) ∧
      buildNextVersion "1.0.0-hotfix.2".toList
          (Version.str ("1.0.0-hotfix.2".toList ++ hotfixSep ++ decimal 3)) ≠
        Except.ok ("1.0.0-hotfix.2".toList ++ hotfixSep ++ decimal (3 + 1))) ∧
    (isSemVer "3.2.0".toList = true ∧
      buildNextVersion "3.2.0".toList
          (Version.str ("3.2.0".toList ++ hotfixSep ++ decimal 9007199254740992)) =
        Except.ok "3.2.0-hotfix.9007199254740992".toList ∧
      buildNextVersion "3.2.0".toList
          (Version.str ("3.2.0".toList ++ hotfixSep ++ decimal 9007199254740992)) ≠
        Except.ok ("3.2.0".toList ++ hotfixSep ++ decimal (9007199254740992 + 1))) := by
  decide

/-- C2: for every base version `B`, `buildNextVersion` on `null`, on `undefined` and
on the empty string returns `B-hotfix.1` (a returned value, not a thrown error); so
it does on what `getLatestVersion` returns for a blank answer of the registry and
for a failed query; base `3.2.0` without published hotfix gives `3.2.0-hotfix.1`. -/
theorem buildNextVersion_absent (B : Str) :
    buildNextVersion B Version.null = Except.ok (B ++ "-hotfix.1".toList) ∧
    buildNextVersion B Version.undefined = Except.ok (B ++ "-hotfix.1".toList) ∧
    buildNextVersion B (Version.str []) = Except.ok (B ++ "-hotfix.1".toList) ∧
    (∀ out : Str, out.all isWhiteSpace = true →
      buildNextVersion B (getLatestVersion (Except.ok out)) =
        Except.ok (B ++ "-hotfix.1".toList)) ∧
    (∀ e : Str, buildNextVersion B (getLatestVersion (Except.error e)) =
        Except.ok (B ++ "-hotfix.1".toList)) ∧
    buildNextVersion "3.2.0".toList Version.null = Except.ok "3.2.0-hotfix.1".toList := by
  refine ⟨rfl, rfl, rfl, ?_, fun _ => rfl, rfl⟩
  intro out hout
  have h1 : trim out = [] := by
    have : out.dropWhile isWhiteSpace = [] := by
      rw [List.dropWhile_eq_nil_iff]
      exact fun x hx => List.all_eq_true.mp hout x hx
    simp [trim, trimStart, trimEnd, this]
  simp [getLatestVersion, h1, buildNextVersion]

/-- C2, witness: a registry answer of a space and a line feed, base `3.2.0` -/
theorem buildNextVersion_absent_witness :
    buildNextVersion "3.2.0".toList (getLatestVersion (Except.ok " \n".toList)) =
      Except.ok ("3.2.0".toList ++ "-hotfix.1".toList) :=
  (buildNextVersion_absent "3.2.0".toList).2.2.2.1 " \n".toList (by decide)

/-- C3: for every base version `B` and every non-empty `currentVersion`,
`buildNextVersion` throws if and only if the part of `currentVersion` before the
first `-hotfix.` (all of it when there is none) differs from `B`; the error thrown
is then the lineage-mismatch error. -/
theorem buildNextVersion_throws_iff (B cur : Str) (hcur : cur ≠ []) :
    ((∃ e, buildNextVersion B (Version.str cur) = Except.error e) ↔
      partBeforeFirst hotfixSep cur ≠ B) ∧
    (partBeforeFirst hotfixSep cur ≠ B →
      buildNextVersion B (Version.str cur) = Except.error (mismatchMessage cur B)) := by
  by_cases hp : partBeforeFirst hotfixSep cur = B
  · obtain ⟨r, hr⟩ := buildNextVersion_of_head_eq B cur hcur hp
    refine ⟨⟨?_, fun h => absurd hp h⟩, fun h => absurd hp h⟩
    rintro ⟨e, he⟩
    rw [hr] at he
    exact Except.noConfusion he
  · have := buildNextVersion_of_head_ne B cur hcur hp
    exact ⟨⟨fun _ => hp, fun _ => ⟨_, this⟩⟩, fun _ => this⟩

/-- C3, witness: base `2.0.0` and current version `1.9.0-hotfix.3` throw -/
theorem buildNextVersion_throws_iff_witness :
    buildNextVersion "2.0.0".toList (Version.str "1.9.0-hotfix.3".toList) =
      Except.error (mismatchMessage "1.9.0-hotfix.3".toList "2.0.0".toList) :=
  (buildNextVersion_throws_iff "2.0.0".toList "1.9.0-hotfix.3".toList (by decide)).2 (by decide)

/-- C4, as amended: for every base version `B` and every `currentVersion` on which
`buildNextVersion` does not throw, the returned value begins with `B-hotfix.`; it is
`B-hotfix.N` for a positive integer `N` if and only if `currentVersion` is `null`,
`undefined`, empty, or `B-hotfix.S` for a text `S` without a further `-hotfix.` such
that `parseInt(S, 10) + 1` is a positive number below `10 ^ 21`; and that is so for
every non-empty string `S` of decimal digits whose value is below `10 ^ 21 - 65536`. -/
theorem buildNextVersion_wellFormed (B : Str) (cur : Version) (r : Str)
    (hr : buildNextVersion B cur = Except.ok r) :
    (B ++ hotfixSep) <+: r ∧
    ((∃ N : Nat, 0 < N ∧ r = B ++ hotfixSep ++ decimal N) ↔
      (cur = Version.null ∨ cur = Version.undefined ∨ cur = Version.str [] ∨
        ∃ (S : Str) (m : Int), cur = Version.str (B ++ hotfixSep ++ S) ∧
          ¬ hotfixSep <:+: S ∧ addOne (parseIntStr S) = JSNumber.int m ∧
          0 < m ∧ m < 10 ^ 21)) ∧
    (∀ D : Str, D ≠ [] → D.all isDigit = true → digitsValue D < 10 ^ 21 - 65536 →
      cur = Version.str (B ++ hotfixSep ++ D) →
      ∃ N : Nat, 0 < N ∧ r = B ++ hotfixSep ++ decimal N) := by
  have hone : B ++ "-hotfix.1".toList = B ++ hotfixSep ++ decimal 1 := by
    rw [List.append_assoc]
    congr 1
  have hsuffix : ∀ (S : Str) (m : Int), cur = Version.str (B ++ hotfixSep ++ S) →
      ¬ hotfixSep <:+: S → addOne (parseIntStr S) = JSNumber.int m → 0 < m → m < 10 ^ 21 →
      ∃ N : Nat, 0 < N ∧ r = B ++ hotfixSep ++ decimal N := by
    intro S m hcur hS hm h0 hT
    subst hcur
    have hne : B ++ hotfixSep ++ S ≠ [] := by
      intro h
      have := congrArg List.length h
      simp [hotfixSep] at this
    rw [buildNextVersion_two_parts B _ S hne (split_of_accepted B S r hr hS)] at hr
    obtain ⟨N, hN, hnum⟩ :=
      (numberToString_decimal_iff (addOne (parseIntStr S))).mpr ⟨m, hm, h0, hT⟩
    exact ⟨N, hN, by rw [← Except.ok.inj hr, hnum]⟩
  refine ⟨buildNextVersion_begins B cur r hr, ⟨?_, ?_⟩, ?_⟩
  · rintro ⟨N, hN, hwf⟩
    cases cur with
    | null => exact Or.inl rfl
    | undefined => exact Or.inr (Or.inl rfl)
    | str c =>
      by_cases hc : c = []
      · subst hc
        exact Or.inr (Or.inr (Or.inl rfl))
      · obtain ⟨S, hS1, hS2, hS3⟩ := wellFormed_source B c r hc hr N hwf
        obtain ⟨m, hm, h0, hT⟩ :=
          (numberToString_decimal_iff (addOne (parseIntStr S))).mp ⟨N, hN, hS3⟩
        exact Or.inr (Or.inr (Or.inr ⟨S, m, by rw [hS1], hS2, hm, h0, hT⟩))
  · rintro (h | h | h | ⟨S, m, hcur, hS, hm, h0, hT⟩)
    · subst h
      simp only [buildNextVersion, Except.ok.injEq] at hr
      exact ⟨1, by decide, by rw [← hr, hone]⟩
    · subst h
      simp only [buildNextVersion, Except.ok.injEq] at hr
      exact ⟨1, by decide, by rw [← hr, hone]⟩
    · subst h
      simp only [buildNextVersion, if_true, Except.ok.injEq] at hr
      exact ⟨1, by decide, by rw [← hr, hone]⟩
    · exact hsuffix S m hcur hS hm h0 hT
  · intro D hne hall hlt hcur
    obtain ⟨m, hm, h0, hT⟩ := increment_of_digits D hne hall hlt
    exact hsuffix D m hcur (digits_no_hotfixSep hall) hm h0 hT

/-- C4, witness: base `3.2.0` and current version `3.2.0-hotfix.12345678901234567890`,
whose number is above `2 ^ 53`: the next version is `3.2.0-hotfix.12345678901234567000` -/
theorem buildNextVersion_wellFormed_witness :
    buildNextVersion "3.2.0".toList (Version.str "3.2.0-hotfix.12345678901234567890".toList) =
      Except.ok "3.2.0-hotfix.12345678901234567000".toList ∧
    ∃ N : Nat, 0 < N ∧
      "3.2.0-hotfix.12345678901234567000".toList = "3.2.0".toList ++ hotfixSep ++ decimal N :=
  ⟨by decide,
    (buildNextVersion_wellFormed "3.2.0".toList
      (Version.str "3.2.0-hotfix.12345678901234567890".toList)
      "3.2.0-hotfix.12345678901234567000".toList (by decide)).2.2
      "12345678901234567890".toList (by decide) (by decide) (by decide) (by decide)⟩

/-- C4, as stated, fails: with base `3.2.0`, the current version `3.2.0` (no
separator) is accepted and yields `3.2.0-hotfix.NaN`; the current version
`3.2.0-hotfix.1000000000000000000000` yields `3.2.0-hotfix.1e+21`, and so does
`3.2.0-hotfix.999999999999999934464`, whose number `10 ^ 21 - 65536` is the least
that `parseInt` rounds up to `10 ^ 21`.  None ends in the decimal digits of a positive
integer. -/
theorem buildNextVersion_wellFormed_counterexample :
    (buildNextVersion "3.2.0".toList (Version.str "3.2.0".toList) =
        Except.ok "3.2.0-hotfix.NaN".toList ∧
      ¬ ∃ N : Nat, 0 < N ∧
        "3.2.0-hotfix.NaN".toList = "3.2.0".toList ++ hotfixSep ++ decimal N) ∧
    (buildNextVersion "3.2.0".toList
          (Version.str "3.2.0-hotfix.1000000000000000000000".toList) =
        Except.ok "3.2.0-hotfix.1e+21".toList ∧
      buildNextVersion "3.2.0".toList
          (Version.str "3.2.0-hotfix.999999999999999934464".toList) =
        Except.ok "3.2.0-hotfix.1e+21".toList ∧
      ¬ ∃ N : Nat, 0 < N ∧
        "3.2.0-hotfix.1e+21".toList = "3.2.0".toList ++ hotfixSep ++ decimal N) := by
  refine ⟨⟨by decide, ?_⟩, ⟨by decide, by decide, ?_⟩⟩
  · rintro ⟨N, _, h⟩
    have h1 : "3.2.0-hotfix.NaN".toList = "3.2.0".toList ++ hotfixSep ++ "NaN".toList := by
      decide
    rw [h1] at h
    exact not_decimal_of_mem (c := 'N') (by decide) (by decide) N (List.append_cancel_left h)
  · rintro ⟨N, _, h⟩
    have h1 : "3.2.0-hotfix.1e+21".toList = "3.2.0".toList ++ hotfixSep ++ "1e+21".toList := by
      decide
    rw [h1] at h
    exact not_decimal_of_mem (c := 'e') (by decide) (by decide) N (List.append_cancel_left h)

/-! ## Claims on `readJson` and `resolveRegistry` -/

/-- C5, evaluated at the text `["\\","//"]`, an array of the two strings `\` and
`//`: it is valid JSON, hence free of comments, but the pattern takes `"\\","` for a
string literal and then `//"]` for a line comment, so the replace returns `["\\","`,
which is neither the text it was given nor JSON, and `readJson` hands that to
`JSON.parse`. -/
theorem readJson_strips_inside_string :
    isJsonText "[\"\\\\\",\"//\"]".toList = true ∧
    stripComments "[\"\\\\\",\"//\"]".toList = "[\"\\\\\",\"".toList ∧
    stripComments "[\"\\\\\",\"//\"]".toList ≠ "[\"\\\\\",\"//\"]".toList ∧
    isJsonText "[\"\\\\\",\"".toList = false ∧
    ∀ (α : Type) (jsonParse : Str → Except Str α),
      readJson jsonParse "[\"\\\\\",\"//\"]".toList = jsonParse "[\"\\\\\",\"".toList := by
  have h : stripComments "[\"\\\\\",\"//\"]".toList = "[\"\\\\\",\"".toList := by decide
  refine ⟨by decide, h, by decide, by decide, ?_⟩
  intro α jsonParse
  unfold readJson
  rw [h]

/-- C6, evaluated at the JSON text `"\\"` (the string `\`) followed by ` //` and the
comment body `"`, which holds no line terminator: alone the text is left as it is,
but with the comment appended the pattern takes the whole of `"\\" //"` for one
string literal, so the comment is not removed and `readJson` hands `JSON.parse` a
text that is not JSON. -/
theorem readJson_keeps_line_comment :
    isJsonText "\"\\\\\"".toList = true ∧
    "\"".toList.all (fun c => !isLineTerminator c) = true ∧
    stripComments "\"\\\\\"".toList = "\"\\\\\"".toList ∧
    stripComments ("\"\\\\\"".toList ++ " //".toList ++ "\"".toList) =
      "\"\\\\\" //\"".toList ∧
    isJsonText "\"\\\\\" //\"".toList = false ∧
    ∀ (α : Type) (jsonParse : Str → Except Str α),
      readJson jsonParse "\"\\\\\"".toList = jsonParse "\"\\\\\"".toList ∧
      readJson jsonParse ("\"\\\\\"".toList ++ " //".toList ++ "\"".toList) =
        jsonParse "\"\\\\\" //\"".toList := by
  have h1 : stripComments "\"\\\\\"".toList = "\"\\\\\"".toList := by decide
  have h2 : stripComments ("\"\\\\\"".toList ++ " //".toList ++ "\"".toList) =
      "\"\\\\\" //\"".toList := by decide
  refine ⟨by decide, by decide, h1, h2, by decide, ?_⟩
  intro α jsonParse
  unfold readJson
  rw [h1, h2]
  exact ⟨rfl, rfl⟩

/-- C7, evaluated at the configuration line
`registry=https://npm.example.com/?repo=hotfix`: the text after `registry=`, trimmed,
is `https://npm.example.com/?repo=hotfix`, but `resolveRegistry` returns
`https://npm.example.com/?repo`, the part up to the second `=`. -/
theorem resolveRegistry_truncates_value :
    resolveRegistry (some "registry=https://npm.example.com/?repo=hotfix".toList) =
      Except.ok (some "https://npm.example.com/?repo".toList) ∧
    trim ("registry=https://npm.example.com/?repo=hotfix".toList.drop "registry=".length) =
      "https://npm.example.com/?repo=hotfix".toList := by
  decide

/-! ## Claim on the manifest rewrite -/

theorem getProp_setProp_same (k : Str) (v : JSValue) : ∀ o : JSObject,
    getProp k (setProp k v o) = some v := by
  intro o
  induction o with
  | nil => simp [setProp, getProp]
  | cons kv rest ih =>
    obtain ⟨k', v'⟩ := kv
    by_cases h : k' = k
    · simp [setProp, getProp, h]
    · simp [setProp, getProp, h, ih]

theorem getProp_setProp_ne {k k' : Str} (v : JSValue) (hne : k ≠ k') : ∀ o : JSObject,
    getProp k' (setProp k v o) = getProp k' o := by
  intro o
  induction o with
  | nil => simp [setProp, getProp, hne]
  | cons kv rest ih =>
    obtain ⟨k2, v2⟩ := kv
    by_cases h : k2 = k
    · subst h
      simp [setProp, getProp, hne]
    · by_cases h2 : k2 = k'
      · subst h2
        simp [setProp, getProp, h]
      · simp [setProp, getProp, h, h2, ih]

theorem getProp_deleteProp_same (k : Str) : ∀ o : JSObject,
    getProp k (deleteProp k o) = none := by
  intro o
  induction o with
  | nil => simp [deleteProp, getProp]
  | cons kv rest ih =>
    obtain ⟨k', v'⟩ := kv
    by_cases h : k' = k
    · simp [deleteProp, h, ih]
    · simp [deleteProp, getProp, h, ih]

theorem getProp_deleteProp_ne {k k' : Str} (hne : k ≠ k') : ∀ o : JSObject,
    getProp k' (deleteProp k o) = getProp k' o := by
  intro o
  induction o with
  | nil => simp [deleteProp, getProp]
  | cons kv rest ih =>
    obtain ⟨k2, v2⟩ := kv
    by_cases h : k2 = k
    · subst h
      simp [deleteProp, getProp, hne, ih]
    · by_cases h2 : k2 = k'
      · subst h2
        simp [deleteProp, getProp, h]
      · simp [deleteProp, getProp, h, h2, ih]

/-- C10: for every manifest object `M` and every `nextVersion`, the object `prepare`
writes has `name` equal to `@dida-whotfix/` followed by `baseName`, `version` equal to
`nextVersion`, `repository` and `homepage` equal to the fixed literals, no `scripts`
and no `volta` property, and every other property as in `M`. -/
theorem rewriteManifest_fields (baseName nextVersion : Str) (M : JSObject) :
    getProp "name".toList (rewriteManifest baseName nextVersion M) =
      some (JSValue.string ("@dida-whotfix/".toList ++ baseName)) ∧
    getProp "version".toList (rewriteManifest baseName nextVersion M) =
      some (JSValue.string nextVersion) ∧
    getProp "repository".toList (rewriteManifest baseName nextVersion M) =
      some (JSValue.object
        [("type".toList, JSValue.string "git".toList),
         ("url".toList, JSValue.string
           "git+https://github.com/DidaTravel/oidc-client-ts-whotfix.git".toList)]) ∧
    getProp "homepage".toList (rewriteManifest baseName nextVersion M) =
      some (JSValue.string "https://github.com/DidaTravel/oidc-client-ts-whotfix#readme".toList) ∧
    getProp "scripts".toList (rewriteManifest baseName nextVersion M) = none ∧
    getProp "volta".toList (rewriteManifest baseName nextVersion M) = none ∧
    ∀ k : Str, k ∉ ["name".toList, "version".toList, "repository".toList, "homepage".toList,
        "scripts".toList, "volta".toList] →
      getProp k (rewriteManifest baseName nextVersion M) = getProp k M := by
  unfold rewriteManifest
  refine ⟨?_, ?_, ?_, ?_, ?_, ?_, ?_⟩
  · rw [getProp_deleteProp_ne (by decide), getProp_deleteProp_ne (by decide),
      getProp_setProp_ne _ (by decide), getProp_setProp_ne _ (by decide),
      getProp_setProp_ne _ (by decide), getProp_setProp_same]
    rfl
  · rw [getProp_deleteProp_ne (by decide), getProp_deleteProp_ne (by decide),
      getProp_setProp_ne _ (by decide), getProp_setProp_ne _ (by decide),
      getProp_setProp_same]
  · rw [getProp_deleteProp_ne (by decide), getProp_deleteProp_ne (by decide),
      getProp_setProp_ne _ (by decide), getProp_setProp_same]
    rfl
  · rw [getProp_deleteProp_ne (by decide), getProp_deleteProp_ne (by decide),
      getProp_setProp_same]
    rfl
  · rw [getProp_deleteProp_ne (by decide), getProp_deleteProp_same]
  · rw [getProp_deleteProp_same]
  · intro k hk
    simp only [List.mem_cons, List.mem_singleton, not_or, List.not_mem_nil, or_false] at hk
    obtain ⟨h1, h2, h3, h4, h5, h6⟩ := hk
    rw [getProp_deleteProp_ne (Ne.symm h6), getProp_deleteProp_ne (Ne.symm h5),
      getProp_setProp_ne _ (Ne.symm h4), getProp_setProp_ne _ (Ne.symm h3),
      getProp_setProp_ne _ (Ne.symm h2), getProp_setProp_ne _ (Ne.symm h1)]

/-- C10, witness: a manifest with `name`, `license`, `scripts` and `volta`; the
`license` property is kept. -/
theorem rewriteManifest_fields_witness :
    getProp "license".toList
        (rewriteManifest "oidc-client-ts".toList "3.2.0-hotfix.1".toList
          [("name".toList, JSValue.string "oidc-client-ts".toList),
           ("license".toList, JSValue.string "Apache-2.0".toList),
           ("scripts".toList, JSValue.object [("build".toList, JSValue.string "tsc".toList)]),
           ("volta".toList, JSValue.object [])]) =
      getProp "license".toList
        [("name".toList, JSValue.string "oidc-client-ts".toList),
         ("license".toList, JSValue.string "Apache-2.0".toList),
         ("scripts".toList, JSValue.object [("build".toList, JSValue.string "tsc".toList)]),
         ("volta".toList, JSValue.object [])] :=
  (rewriteManifest_fields "oidc-client-ts".toList "3.2.0-hotfix.1".toList _).2.2.2.2.2.2
    "license".toList (by decide)

/-! ## Claims on the run -/

theorem toLowerChar_eq_iff (c t : Char) (ht : 97 ≤ t.toNat ∧ t.toNat ≤ 122) :
    toLowerChar c = t ↔ c = t ∨ c = Char.ofNat (t.toNat - 32) := by
  constructor
  · intro h
    unfold toLowerChar at h
    split at h
    · rename_i hr
      right
      obtain ⟨k, hk⟩ : ∃ k, c.toNat = k := ⟨_, rfl⟩
      have hc : c = Char.ofNat k := by rw [← hk, Char.ofNat_toNat]
      rw [hk] at hr h
      subst hc
      subst h
      obtain ⟨h1, h2⟩ := hr
      interval_cases k <;> decide
    · exact Or.inl h
  · rintro (h | h)
    · subst h
      unfold toLowerChar
      rw [if_neg (by omega)]
    · obtain ⟨k, hk⟩ : ∃ k, t.toNat = k := ⟨_, rfl⟩
      have hc : t = Char.ofNat k := by rw [← hk, Char.ofNat_toNat]
      rw [hk] at ht h
      subst hc
      subst h
      obtain ⟨h1, h2⟩ := ht
      interval_cases k <;> decide

theorem accepts_iff (answer : Str) : accepts answer = true ↔ answer ∈ yesAnswers := by
  have hy := fun c => toLowerChar_eq_iff c 'y' (by decide)
  have he := fun c => toLowerChar_eq_iff c 'e' (by decide)
  have hs := fun c => toLowerChar_eq_iff c 's' (by decide)
  have hlist : yesAnswers = [['y'], ['Y'], ['y', 'e', 's'], ['y', 'e', 'S'], ['y', 'E', 's'],
      ['y', 'E', 'S'], ['Y', 'e', 's'], ['Y', 'e', 'S'], ['Y', 'E', 's'], ['Y', 'E', 'S']] := by
    decide
  have hY : Char.ofNat ('y'.toNat - 32) = 'Y' := by decide
  have hE : Char.ofNat ('e'.toNat - 32) = 'E' := by decide
  have hS : Char.ofNat ('s'.toNat - 32) = 'S' := by decide
  rw [hY] at hy
  rw [hE] at he
  rw [hS] at hs
  have h1 : "y".toList = ['y'] := by decide
  have h3 : "yes".toList = ['y', 'e', 's'] := by decide
  unfold accepts toLowerCase
  rw [hlist, h1, h3]
  match answer with
  | [] => simp
  | [a] => simp [hy]
  | [a, b] => simp
  | [a, b, c] =>
    simp only [List.map_cons, List.map_nil, Bool.or_eq_true, decide_eq_true_eq, List.cons.injEq,
      and_true, hy, he, hs, List.mem_cons, List.mem_singleton, List.not_mem_nil, or_false]
    constructor
    · rintro (⟨h, hnil⟩ | ⟨ha | ha, hb | hb, hc | hc⟩)
      · exact absurd hnil (by simp)
      all_goals subst ha; subst hb; subst hc; simp
    · intro h
      right
      rcases h with h | h | h | h | h | h | h | h | h | h
      all_goals first
        | (exfalso; simp at h)
        | (obtain ⟨ha, hb, hc⟩ := h; subst ha; subst hb; subst hc; simp)
  | a :: b :: c :: d :: rest => simp

theorem startEvents_console (argv : List Str) : ∀ ev ∈ startEvents argv,
    ∃ level text, ev = Event.console level text := by
  intro ev hev
  simp only [startEvents, List.mem_cons, List.mem_map] at hev
  rcases hev with h | ⟨_, _, h⟩
  · exact ⟨_, _, h⟩
  · exact ⟨_, _, h.symm⟩

theorem queryEvents_kind (env : Env) (registry : Str) : ∀ ev ∈ queryEvents env registry,
    (∃ level text, ev = Event.console level text) ∨ (∃ c, ev = Event.query c) := by
  intro ev hev
  unfold queryEvents at hev
  cases hv : env.npmView with
  | ok out =>
    rw [hv] at hev
    simp only [List.mem_singleton] at hev
    exact Or.inr ⟨_, hev⟩
  | error e =>
    rw [hv] at hev
    simp only [List.mem_cons, List.mem_singleton, List.not_mem_nil, or_false] at hev
    rcases hev with h | h
    · exact Or.inr ⟨_, h⟩
    · exact Or.inl ⟨_, _, h⟩

theorem run_declined (env : Env)
    (h : (∀ registry, resolveRegistry env.npmrc = Except.ok (some registry) → registry = []) ∨
      ∀ answer, env.answer = some answer → answer ∉ yesAnswers) :
    (∀ ev ∈ (run env).1, (∃ level text, ev = Event.console level text) ∨
      (∃ c, ev = Event.query c) ∨ (∃ p, ev = Event.question p) ∨ ev = Event.close) ∧
    (((∀ registry, resolveRegistry env.npmrc = Except.ok (some registry) → registry = []) ∨
      ∃ answer, env.answer = some answer) → (run env).2 = 1) ∧
    ((∀ registry, resolveRegistry env.npmrc = Except.ok (some registry) → registry = []) →
      ∀ ev ∈ (run env).1, ∃ level text, ev = Event.console level text) := by
  have hwarn : ∀ ev ∈ startEvents env.argv ++ [Event.console Level.warn
      "No registry found in .npmrc, using default npm registry.".toList],
      ∃ level text, ev = Event.console level text := by
    intro ev hev
    rcases List.mem_append.mp hev with h1 | h1
    · exact startEvents_console _ ev h1
    · simp only [List.mem_singleton] at h1
      exact ⟨_, _, h1⟩
  unfold run
  cases hreg : resolveRegistry env.npmrc with
  | error e =>
    exact ⟨fun ev hev => Or.inl (startEvents_console _ ev hev), fun _ => rfl,
      fun _ ev hev => startEvents_console _ ev hev⟩
  | ok reg =>
    cases reg with
    | none =>
      exact ⟨fun ev hev => Or.inl (hwarn ev hev), fun _ => rfl, fun _ ev hev => hwarn ev hev⟩
    | some registry =>
      by_cases hnil : registry = []
      · simp only [hnil, if_true]
        exact ⟨fun ev hev => Or.inl (hwarn ev hev), fun _ => trivial,
          fun _ ev hev => hwarn ev hev⟩
      · have hno : ¬ ∀ registry', Except.ok (some registry) =
            (Except.ok (some registry') : Except Str (Option Str)) → registry' = [] :=
          fun hx => hnil (hx registry rfl)
        have hans : ∀ answer, env.answer = some answer → answer ∉ yesAnswers := by
          rcases h with h | h
          · exact absurd (h registry (by rw [hreg])) hnil
          · exact h
        have hloc : ∀ ev ∈ startEvents env.argv ++
            [Event.console Level.info ("Using registry: ".toList ++ registry)] ++
            queryEvents env registry,
            (∃ level text, ev = Event.console level text) ∨ (∃ c, ev = Event.query c) ∨
              (∃ p, ev = Event.question p) ∨ ev = Event.close := by
          intro ev hev
          rcases List.mem_append.mp hev with h1 | h1
          · rcases List.mem_append.mp h1 with h2 | h2
            · exact Or.inl (startEvents_console _ ev h2)
            · simp only [List.mem_singleton] at h2
              exact Or.inl ⟨_, _, h2⟩
          · rcases queryEvents_kind env registry ev h1 with h2 | h2
            · exact Or.inl h2
            · exact Or.inr (Or.inl h2)
        simp only [hnil, if_false]
        cases hver : buildNextVersion env.baseVersion (getLatestVersion env.npmView) with
        | error e =>
          exact ⟨fun ev hev => hloc ev hev, fun _ => rfl, fun hx => absurd hx hno⟩
        | ok nextVersion =>
          have hasked : ∀ ev ∈ startEvents env.argv ++
              [Event.console Level.info ("Using registry: ".toList ++ registry)] ++
              queryEvents env registry ++
              [Event.question (promptText (getLatestVersion env.npmView) nextVersion)],
              (∃ level text, ev = Event.console level text) ∨ (∃ c, ev = Event.query c) ∨
                (∃ p, ev = Event.question p) ∨ ev = Event.close := by
            intro ev hev
            rcases List.mem_append.mp hev with h1 | h1
            · exact hloc ev h1
            · simp only [List.mem_singleton] at h1
              exact Or.inr (Or.inr (Or.inl ⟨_, h1⟩))
          cases hanswer : env.answer with
          | none =>
            refine ⟨fun ev hev => hasked ev hev, fun hx => ?_, fun hx => absurd hx hno⟩
            rcases hx with hx | ⟨a, ha⟩
            · exact absurd hx hno
            · exact Option.noConfusion ha
          | some answer =>
            have hacc : accepts answer = false := by
              rw [← Bool.not_eq_true, accepts_iff]
              exact hans answer hanswer
            simp only [hacc, Bool.false_eq_true, if_false]
            refine ⟨fun ev hev => ?_, fun _ => trivial, fun hx => absurd hx hno⟩
            rcases List.mem_append.mp hev with h1 | h1
            · exact hasked ev h1
            · simp only [List.mem_cons, List.mem_singleton, List.not_mem_nil, or_false] at h1
              rcases h1 with h2 | h2
              · exact Or.inl ⟨_, _, h2⟩
              · exact Or.inr (Or.inr (Or.inr h2))

/-- C8, as amended: in every run in which `resolveRegistry` yields no non-empty
registry, or in which the prompt is not answered with `y` or `yes` in some letter
case, no shell command of `prepare` (the build among them) is run, the staged
manifest is neither read nor written, and nothing is published; the exit code is 1
when there is no registry and when a line is entered, the empty line included; and
when there is no registry, no registry query is issued either.  No exit code is
promised for a prompt whose input ends before a line is entered. -/
theorem run_aborts (env : Env)
    (h : (∀ registry, resolveRegistry env.npmrc = Except.ok (some registry) → registry = []) ∨
      ∀ answer, env.answer = some answer → answer ∉ yesAnswers) :
    ((∀ c, Event.shell c ∉ (run env).1) ∧ Event.readStaged ∉ (run env).1 ∧
      (∀ m, Event.writeStaged m ∉ (run env).1) ∧ (∀ c, Event.publish c ∉ (run env).1)) ∧
    (((∀ registry, resolveRegistry env.npmrc = Except.ok (some registry) → registry = []) ∨
      ∃ answer, env.answer = some answer) → (run env).2 = 1) ∧
    ((∀ registry, resolveRegistry env.npmrc = Except.ok (some registry) → registry = []) →
      ∀ c, Event.query c ∉ (run env).1) := by
  obtain ⟨hkind, hexit, hquery⟩ := run_declined env h
  refine ⟨⟨fun c hc => ?_, fun hc => ?_, fun m hc => ?_, fun c hc => ?_⟩, hexit,
    fun hx c hc => ?_⟩
  · rcases hkind _ hc with ⟨_, _, h1⟩ | ⟨_, h1⟩ | ⟨_, h1⟩ | h1 <;> exact Event.noConfusion h1
  · rcases hkind _ hc with ⟨_, _, h1⟩ | ⟨_, h1⟩ | ⟨_, h1⟩ | h1 <;> exact Event.noConfusion h1
  · rcases hkind _ hc with ⟨_, _, h1⟩ | ⟨_, h1⟩ | ⟨_, h1⟩ | h1 <;> exact Event.noConfusion h1
  · rcases hkind _ hc with ⟨_, _, h1⟩ | ⟨_, h1⟩ | ⟨_, h1⟩ | h1 <;> exact Event.noConfusion h1
  · obtain ⟨_, _, h1⟩ := hquery hx _ hc
    exact Event.noConfusion h1

/-- C8, witness: the published version is `3.2.0-hotfix.4` and the answer is `n`:
the exit code is 1 -/
theorem run_aborts_witness :
    decliningRun.answer = some "n".toList ∧ "n".toList ∉ yesAnswers ∧
      (run decliningRun).2 = 1 :=
  ⟨rfl, by decide,
    (run_aborts decliningRun
      (Or.inr (fun answer ha => by
        have h2 : answer = "n".toList := (Option.some.inj ha).symm
        rw [h2]
        decide))).2.1 (Or.inr ⟨"n".toList, rfl⟩)⟩

/-- C8, as stated, fails: in a run with a registry configured whose input ends at
the prompt before a line is entered, the prompt gets no `y` and no `yes`, yet the
callback with the `process.exit(1)` never runs and the exit code is 0, not 1. -/
theorem run_aborts_counterexample :
    resolveRegistry closedPromptRun.npmrc =
      Except.ok (some "https://npm.example.com/".toList) ∧
    closedPromptRun.answer = none ∧
    (run closedPromptRun).2 = 0 ∧ (run closedPromptRun).2 ≠ 1 := by
  decide

theorem buildOnly_iff (argv : List Str) :
    buildOnly argv = true ↔ "--buildOnly".toList ∈ argv := by
  unfold buildOnly
  rw [List.any_eq_true]
  constructor
  · rintro ⟨x, hx, h⟩
    have : x = "--buildOnly".toList := by simpa using h
    rw [← this]
    exact hx
  · intro h
    exact ⟨_, h, by simp⟩

theorem prepare_ok (env : Env) (nextVersion : Str)
    (h1 : env.fails Action.cleanStaging = false) (h2 : env.fails Action.build = false)
    (h3 : env.fails Action.makeStaging = false) (h4 : env.fails Action.copyDist = false)
    (h5 : env.fails Action.copyFiles = false) (h6 : env.fails Action.readStaged = false)
    (h7 : env.fails Action.writeStaged = false) :
    prepare env nextVersion =
      ([Event.shell "rm -rf temp/package-out".toList,
        Event.shell "npm run build".toList,
        Event.shell "mkdir -p temp/package-out/dist".toList,
        Event.shell "cp -R dist/ temp/package-out/dist".toList,
        Event.shell "cp LICENSE README.md package.json temp/package-out".toList,
        Event.readStaged,
        Event.writeStaged (rewriteManifest env.baseName nextVersion env.stagedManifest)],
       true) := by
  simp only [prepare, prepareSteps, runSteps, h1, h2, h3, h4, h5, h6, h7, Bool.false_eq_true,
    if_false]

theorem publish_ok (env : Env) (registry : Str) (h : env.fails Action.publish = false) :
    publish env registry =
      ([Event.publish
          ("npm publish --access restricted --tag latest --registry ".toList ++ registry)],
       true) := by
  have hc : publishCommand registry =
      "npm publish --access restricted --tag latest --registry ".toList ++ registry := by
    simp only [publishCommand, join, List.intercalate, List.intersperse, List.flatten,
      List.append_nil]
    have hlit : "npm publish --access restricted --tag latest --registry ".toList =
        "npm publish ".toList ++ ("--access restricted".toList ++ (" ".toList ++
          ("--tag latest".toList ++ (" ".toList ++ "--registry ".toList)))) := by decide
    rw [hlit]
    simp only [List.append_assoc]
  simp only [publish, runSteps, h, Bool.false_eq_true, if_false, hc]

/-- C9, as amended: in every run with a registry configured, a version computed
without error, an answer that is `y` or `yes` in any letter case, no failing
subprocess, and a staged manifest that is read and written without error: the run
first emits only console lines, the registry query, the prompt and the closing of
the prompt, then performs the seven steps of `prepare` in order.  When `--buildOnly`
occurs anywhere in `argv`, a console line follows, nothing is ever published and the
exit code is 0.  When it does not occur, the publish command follows as the last
event, it is the only publish, and the exit code is 0. -/
theorem run_buildOnly (env : Env) (registry nextVersion answer : Str)
    (hreg : resolveRegistry env.npmrc = Except.ok (some registry)) (hne : registry ≠ [])
    (hver : buildNextVersion env.baseVersion (getLatestVersion env.npmView) =
      Except.ok nextVersion)
    (hans : env.answer = some answer) (hyes : answer ∈ yesAnswers)
    (hsub : env.fails Action.cleanStaging = false ∧ env.fails Action.build = false ∧
      env.fails Action.makeStaging = false ∧ env.fails Action.copyDist = false ∧
      env.fails Action.copyFiles = false ∧ env.fails Action.publish = false)
    (hfile : env.fails Action.readStaged = false ∧ env.fails Action.writeStaged = false) :
    ∃ before : List Event,
      (∀ ev ∈ before, (∃ level text, ev = Event.console level text) ∨
        (∃ c, ev = Event.query c) ∨ (∃ p, ev = Event.question p) ∨ ev = Event.close) ∧
      ("--buildOnly".toList ∈ env.argv →
        run env =
          (before ++
            [Event.shell "rm -rf temp/package-out".toList,
             Event.shell "npm run build".toList,
             Event.shell "mkdir -p temp/package-out/dist".toList,
             Event.shell "cp -R dist/ temp/package-out/dist".toList,
             Event.shell "cp LICENSE README.md package.json temp/package-out".toList,
             Event.readStaged,
             Event.writeStaged (rewriteManifest env.baseName nextVersion env.stagedManifest),
             Event.console Level.info "Build completed. Skipping publish step.".toList],
           0) ∧
        ∀ c, Event.publish c ∉ (run env).1) ∧
      ("--buildOnly".toList ∉ env.argv →
        run env =
          (before ++
            [Event.shell "rm -rf temp/package-out".toList,
             Event.shell "npm run build".toList,
             Event.shell "mkdir -p temp/package-out/dist".toList,
             Event.shell "cp -R dist/ temp/package-out/dist".toList,
             Event.shell "cp LICENSE README.md package.json temp/package-out".toList,
             Event.readStaged,
             Event.writeStaged (rewriteManifest env.baseName nextVersion env.stagedManifest),
             Event.publish
               ("npm publish --access restricted --tag latest --registry ".toList ++
                 registry)],
           0) ∧
        ∀ c, Event.publish c ∉ before ++
            [Event.shell "rm -rf temp/package-out".toList,
             Event.shell "npm run build".toList,
             Event.shell "mkdir -p temp/package-out/dist".toList,
             Event.shell "cp -R dist/ temp/package-out/dist".toList,
             Event.shell "cp LICENSE README.md package.json temp/package-out".toList,
             Event.readStaged,
             Event.writeStaged
               (rewriteManifest env.baseName nextVersion env.stagedManifest)]) := by
  obtain ⟨h1, h2, h3, h4, h5, h8⟩ := hsub
  obtain ⟨h6, h7⟩ := hfile
  have hacc : accepts answer = true := (accepts_iff answer).mpr hyes
  have hprep := prepare_ok env nextVersion h1 h2 h3 h4 h5 h6 h7
  have hpub := publish_ok env registry h8
  have hrun : run env =
      (startEvents env.argv ++
        [Event.console Level.info ("Using registry: ".toList ++ registry)] ++
        queryEvents env registry ++
        [Event.question (promptText (getLatestVersion env.npmView) nextVersion)] ++
        [Event.console Level.info ("Using new version: ".toList ++ nextVersion), Event.close] ++
        (proceed env registry nextVersion).1, (proceed env registry nextVersion).2) := by
    unfold run
    rw [hreg]
    simp only [hne, if_false, hver, hans, hacc, if_true]
  have hbefore : ∀ ev ∈ startEvents env.argv ++
      [Event.console Level.info ("Using registry: ".toList ++ registry)] ++
      queryEvents env registry ++
      [Event.question (promptText (getLatestVersion env.npmView) nextVersion)] ++
      [Event.console Level.info ("Using new version: ".toList ++ nextVersion), Event.close],
      (∃ level text, ev = Event.console level text) ∨ (∃ c, ev = Event.query c) ∨
        (∃ p, ev = Event.question p) ∨ ev = Event.close := by
    intro ev hev
    simp only [List.mem_append, List.mem_cons, List.mem_singleton, List.not_mem_nil,
      or_false] at hev
    rcases hev with (((h | h) | h) | h) | h | h
    · exact Or.inl (startEvents_console _ ev h)
    · exact Or.inl ⟨_, _, h⟩
    · rcases queryEvents_kind env registry ev h with hq | hq
      · exact Or.inl hq
      · exact Or.inr (Or.inl hq)
    · exact Or.inr (Or.inr (Or.inl ⟨_, h⟩))
    · exact Or.inl ⟨_, _, h⟩
    · exact Or.inr (Or.inr (Or.inr h))
  have hnopub : ∀ c, ∀ l : List Event, (∀ ev ∈ l, ∀ c', ev ≠ Event.publish c') →
      Event.publish c ∉ startEvents env.argv ++
        [Event.console Level.info ("Using registry: ".toList ++ registry)] ++
        queryEvents env registry ++
        [Event.question (promptText (getLatestVersion env.npmView) nextVersion)] ++
        [Event.console Level.info ("Using new version: ".toList ++ nextVersion), Event.close] ++
        l := by
    intro c l hl hc
    rcases List.mem_append.mp hc with hc | hc
    · rcases hbefore _ hc with ⟨_, _, h⟩ | ⟨_, h⟩ | ⟨_, h⟩ | h <;> exact Event.noConfusion h
    · exact hl _ hc c rfl
  refine ⟨_, hbefore, fun hflag => ?_, fun hflag => ?_⟩
  · have hb : buildOnly env.argv = true := (buildOnly_iff env.argv).mpr hflag
    have hproceed : proceed env registry nextVersion =
        ([Event.shell "rm -rf temp/package-out".toList,
          Event.shell "npm run build".toList,
          Event.shell "mkdir -p temp/package-out/dist".toList,
          Event.shell "cp -R dist/ temp/package-out/dist".toList,
          Event.shell "cp LICENSE README.md package.json temp/package-out".toList,
          Event.readStaged,
          Event.writeStaged (rewriteManifest env.baseName nextVersion env.stagedManifest),
          Event.console Level.info "Build completed. Skipping publish step.".toList], 0) := by
      unfold proceed
      simp only [hprep, hb, Bool.true_eq_false, if_false, List.cons_append, List.nil_append]
    rw [hrun, hproceed]
    refine ⟨rfl, fun c => hnopub c _ ?_⟩
    intro ev hev c'
    simp only [List.mem_cons, List.mem_singleton, List.not_mem_nil, or_false] at hev
    rcases hev with h | h | h | h | h | h | h | h <;> (subst h; exact Event.noConfusion)
  · have hb : buildOnly env.argv = false := by
      rw [← Bool.not_eq_true, buildOnly_iff]
      exact hflag
    have hproceed : proceed env registry nextVersion =
        ([Event.shell "rm -rf temp/package-out".toList,
          Event.shell "npm run build".toList,
          Event.shell "mkdir -p temp/package-out/dist".toList,
          Event.shell "cp -R dist/ temp/package-out/dist".toList,
          Event.shell "cp LICENSE README.md package.json temp/package-out".toList,
          Event.readStaged,
          Event.writeStaged (rewriteManifest env.baseName nextVersion env.stagedManifest),
          Event.publish
            ("npm publish --access restricted --tag latest --registry ".toList ++
              registry)], 0) := by
      unfold proceed
      simp only [hprep, hpub, hb, Bool.true_eq_false, if_false, if_true, List.cons_append,
        List.nil_append]
    rw [hrun, hproceed]
    refine ⟨rfl, fun c => hnopub c _ ?_⟩
    intro ev hev c'
    simp only [List.mem_cons, List.mem_singleton, List.not_mem_nil, or_false] at hev
    rcases hev with h | h | h | h | h | h | h <;> (subst h; exact Event.noConfusion)

/-- C9, witness: base `3.2.0`, nothing published yet, answer `y`, with `--buildOnly`
as third argument: the run ends with code 0 after the build and the staging, and
publishes nothing -/
theorem run_buildOnly_witness :
    "--buildOnly".toList ∈ buildOnlyRun.argv ∧
    ∃ before : List Event,
      run buildOnlyRun =
        (before ++
          [Event.shell "rm -rf temp/package-out".toList,
           Event.shell "npm run build".toList,
           Event.shell "mkdir -p temp/package-out/dist".toList,
           Event.shell "cp -R dist/ temp/package-out/dist".toList,
           Event.shell "cp LICENSE README.md package.json temp/package-out".toList,
           Event.readStaged,
           Event.writeStaged
             (rewriteManifest buildOnlyRun.baseName "3.2.0-hotfix.1".toList
               buildOnlyRun.stagedManifest),
           Event.console Level.info "Build completed. Skipping publish step.".toList],
         0) ∧
      ∀ c, Event.publish c ∉ (run buildOnlyRun).1 :=
  ⟨by decide,
    (run_buildOnly buildOnlyRun "https://npm.example.com/".toList "3.2.0-hotfix.1".toList
      "y".toList (by decide) (by decide) (by decide) rfl (by decide)
      ⟨rfl, rfl, rfl, rfl, rfl, rfl⟩ ⟨rfl, rfl⟩).elim
      (fun before h => ⟨before, h.2.1 (by decide)⟩)⟩

/-- C9, as stated, fails: with a registry configured, the version `3.2.0-hotfix.1`
computed, the answer `y` and every subprocess succeeding, a `writeFileSync` that
throws on the staged manifest ends the run with code 1 although `--buildOnly` is
given, and without the flag nothing is published. -/
theorem run_buildOnly_counterexample :
    (resolveRegistry readOnlyManifestRun.npmrc =
        Except.ok (some "https://npm.example.com/".toList) ∧
      buildNextVersion readOnlyManifestRun.baseVersion
          (getLatestVersion readOnlyManifestRun.npmView) =
        Except.ok "3.2.0-hotfix.1".toList ∧
      readOnlyManifestRun.answer = some "y".toList ∧ "y".toList ∈ yesAnswers ∧
      (readOnlyManifestRun.fails Action.cleanStaging = false ∧
        readOnlyManifestRun.fails Action.build = false ∧
        readOnlyManifestRun.fails Action.makeStaging = false ∧
        readOnlyManifestRun.fails Action.copyDist = false ∧
        readOnlyManifestRun.fails Action.copyFiles = false ∧
        readOnlyManifestRun.fails Action.publish = false) ∧
      "--buildOnly".toList ∈ readOnlyManifestRun.argv ∧
      (run readOnlyManifestRun).2 = 1) ∧
    (resolveRegistry readOnlyManifestPublishRun.npmrc =
        Except.ok (some "https://npm.example.com/".toList) ∧
      buildNextVersion readOnlyManifestPublishRun.baseVersion
          (getLatestVersion readOnlyManifestPublishRun.npmView) =
        Except.ok "3.2.0-hotfix.1".toList ∧
      readOnlyManifestPublishRun.answer = some "y".toList ∧
      (readOnlyManifestPublishRun.fails Action.cleanStaging = false ∧
        readOnlyManifestPublishRun.fails Action.build = false ∧
        readOnlyManifestPublishRun.fails Action.makeStaging = false ∧
        readOnlyManifestPublishRun.fails Action.copyDist = false ∧
        readOnlyManifestPublishRun.fails Action.copyFiles = false ∧
        readOnlyManifestPublishRun.fails Action.publish = false) ∧
      "--buildOnly".toList ∉ readOnlyManifestPublishRun.argv ∧
      (run readOnlyManifestPublishRun).1.getLast? =
        some (Event.writeStaged
          (rewriteManifest readOnlyManifestPublishRun.baseName "3.2.0-hotfix.1".toList
            readOnlyManifestPublishRun.stagedManifest)) ∧
      (∀ c, Event.publish c ∉ (run readOnlyManifestPublishRun).1) ∧
      (run readOnlyManifestPublishRun).2 = 1) := by
  refine ⟨by decide, by decide, by decide, rfl, ⟨rfl, rfl, rfl, rfl, rfl, rfl⟩, by decide,
    rfl, ?_, by decide⟩
  intro c hc
  have hrun : (run readOnlyManifestPublishRun).1 =
      [Event.console Level.info "Starting publish script...".toList,
       Event.console Level.info "Using registry: https://npm.example.com/".toList,
       Event.query
         "npm view @dida-whotfix/oidc-client-ts version --registry https://npm.example.com/".toList,
       Event.console Level.error "Failed to get latest version: npm error code E404".toList,
       Event.question
         "No version specified. Use a new version (from null to: 3.2.0-hotfix.1)? (y/n): ".toList,
       Event.console Level.info "Using new version: 3.2.0-hotfix.1".toList,
       Event.close,
       Event.shell "rm -rf temp/package-out".toList,
       Event.shell "npm run build".toList,
       Event.shell "mkdir -p temp/package-out/dist".toList,
       Event.shell "cp -R dist/ temp/package-out/dist".toList,
       Event.shell "cp LICENSE README.md package.json temp/package-out".toList,
       Event.readStaged,
       Event.writeStaged
         (rewriteManifest readOnlyManifestPublishRun.baseName "3.2.0-hotfix.1".toList
           readOnlyManifestPublishRun.stagedManifest)] := by
    rfl
  rw [hrun] at hc
  simp only [List.mem_cons, List.mem_singleton, List.not_mem_nil, or_false] at hc
  rcases hc with h | h | h | h | h | h | h | h | h | h | h | h | h | h <;>
    exact Event.noConfusion h

end Publish
